import Mathlib

/-!
Verification of the incremental re-indexing engine of the linktree chatbot
(`app/indexer.py`) and of its query path (`app/main.py`), against a shallow
embedding of the Python source.

Modelling conventions:
* Python strings are Lean `String`s; `str.split()` (whitespace word
  splitting, discarding empty fields) and `" ".join(...)` are implemented
  below over `List Char`.
* External collaborators (HTTP fetching, the embedding provider, the
  storage backend's failure behaviour) are an explicit environment `Env`.
  `_fetch_clean` catches every exception and returns an empty text, so a
  fetch failure and an empty extraction are both encoded as text `""`
  (the title is irrelevant in that case).
* Python exceptions are `Except Unit`: a raised exception is `.error ()`
  and propagates exactly where the source lets it propagate.
* The Chroma collection is the list of its stored entries.  `add` enforces
  Chroma's contract: parallel array lengths must match, ids must be fresh
  and pairwise distinct, otherwise it raises.
* The chunk id in the source is `hashlib.sha1(f"{url}::{n}".encode())
  .hexdigest()`.  The digest is a deterministic function of the pair
  `(url, n)`, and it is injective on such pairs assuming SHA-1
  collision-resistance (the preimage `f"{url}::{n}"` itself is injective:
  the chunk index prints as a digit string containing no colon).  We model
  the digest value by the pair itself; no claim inspects the hex digits.
* Embedding vectors are opaque payloads (no claim inspects a coordinate);
  they are modelled as `List Int`.
* `reindex` iterates over Python sets built from lists; the iteration
  order of a Python set is unspecified, so we fix first-occurrence order
  (`pyDedup`).  No claim depends on the order, only on membership and on
  cardinalities.
* `time.sleep(0.4)` is a pure delay with no observable effect on the data
  model and is not modelled.
* The reindexing and ask functions additionally return the list of
  storage events they perform (`Event` / `AskEvent`), in execution order,
  so that temporal claims (deletes before adds; the completion provider is
  never called) can be stated.
-/

/-! ## Python word splitting: `text.split()` -/

/-- Python `str` whitespace (the characters `str.split()` splits on). -/
def isPySpace (c : Char) : Bool :=
  c = ' ' || c = '\t' || c = '\n' || c = '\r' || c = '\x0b' || c = '\x0c'

/-- Worker for `str.split()`: scans the characters, accumulating the current
word in reverse in `acc`; whitespace runs separate words and empty fields
are discarded. -/
def splitWordsAux : List Char → List Char → List (List Char)
  | [], [] => []
  | [], acc => [acc.reverse]
  | c :: cs, acc =>
    if isPySpace c then
      if acc.isEmpty then splitWordsAux cs []
      else acc.reverse :: splitWordsAux cs []
    else splitWordsAux cs (c :: acc)

/-- Python `text.split()` with no argument: the whitespace-delimited words
of `text`, with no empty fields. -/
def pySplit (s : String) : List String :=
  (splitWordsAux s.toList []).map (fun w => String.mk w)

/-- Python `sep.join(parts)`. -/
def pyJoin (sep : String) : List String → String
  | [] => ""
  | [w] => w
  | w :: ws => w ++ sep ++ pyJoin sep ws

/-! ## Python `range(0, stop, step)` -/

/-- Python `range(0, stop, step)` for a natural `stop` and a possibly
negative integer `step`: for a positive step the indices `0, step, 2*step,
…` below `stop`; for a negative (or meaningless) step the empty range.
(Python raises `ValueError` on a zero step; the caller below checks for
that case before using the range.) -/
def pyRange0 (stop : Nat) (step : Int) : List Nat :=
  if 0 < step then
    (List.range ((stop + step.toNat - 1) / step.toNat)).map (fun k => k * step.toNat)
  else []

/-! ## The chunker: `_chunk` from `app/indexer.py` -/

/-- Model of `_chunk(text, max_tokens, overlap)`:

    words = text.split()
    if not words: return
    step = max_tokens - overlap
    for i in range(0, len(words), step):
        yield " ".join(words[i:i+max_tokens])

The generator is finite, so it is modelled as the list of all yielded
segments.  A zero `step` makes `range` raise `ValueError`, modelled as
`.error ()`; a negative `step` makes the range empty, so the generator
silently yields nothing.  The indices produced by `pyRange0` are
nonnegative, so the Python slice `words[i:i+max_tokens]` is
`(words.drop i).take max_tokens`. -/
def _chunk (text : String) (max_tokens overlap : Nat) : Except Unit (List String) :=
  let words := pySplit text
  if words.isEmpty then .ok []
  else
    let step : Int := (max_tokens : Int) - (overlap : Int)
    if step = 0 then .error ()
    else .ok ((pyRange0 words.length step).map
      (fun i => pyJoin " " ((words.drop i).take max_tokens)))

/-- The segments `_chunk` yields at the default configuration
`max_tokens = 1000`, `overlap = 120` (step `880`), as a total function;
`_chunk text 1000 120` never raises (see `_chunk_defaults_ok`). -/
def chunkSegs (text : String) : List String :=
  (pyRange0 (pySplit text).length 880).map
    (fun i => pyJoin " " (((pySplit text).drop i).take 1000))

/-! ## Data model of the vector index -/

/-- A chunk id: the SHA-1 hex digest of `f"{url}::{n}"`, modelled by the
pair `(url, n)` itself (see the header comment on collision resistance). -/
abbrev ChunkId := String × Nat

/-- Model of `hashlib.sha1(f"{url}::{n}".encode()).hexdigest()`. -/
def sha1_id (url : String) (n : Nat) : ChunkId := (url, n)

/-- Embedding vectors are opaque payloads. -/
abbrev Vec := List Int

/-- One stored record of the Chroma collection: id, document text,
embedding vector, and the metadata dict `{"url": url, "title": title,
"chunk": n}`. -/
structure Entry where
  id : ChunkId
  doc : String
  vec : Vec
  url : String
  title : String
  chunk : Nat
deriving DecidableEq, Repr

/-- The persisted collection: the list of its entries, in insertion
order. -/
abbrev Collection := List Entry

/-- The summary dict returned by `reindex`. -/
structure Summary where
  added_urls_count : Nat
  removed_urls_count : Nat
  total_indexed_chunks : Nat
deriving DecidableEq, Repr

/-- The external collaborators of the indexer.

`fetch` models `_fetch_clean`: it returns `(title, text)`; a network
failure, an HTTP error or an empty extraction all yield text `""` (the
source catches every exception).  `_fetch_clean` strips the text, so a
non-empty result contains at least one word.

`embed` models `client.embeddings.create` on a batch of documents: it
returns one vector per document or raises.

`deleteFails` models storage failures of `collection.delete`: the call on
a given id batch either succeeds (removing exactly the entries with those
ids) or raises. -/
structure Env where
  fetch : String → String × String
  embed : List String → Except Unit (List Vec)
  deleteFails : List ChunkId → Bool

/-- Storage events of one `reindex` run, in execution order: `del u` for a
`_delete_url(collection, u)` call, `add u ids` for a `collection.add` call
inserting the entries of url `u` with the given ids. -/
inductive Event where
  | del (url : String)
  | add (url : String) (ids : List ChunkId)
deriving DecidableEq, Repr

/-! ## Collection operations -/

/-- First-occurrence deduplication worker (`seen` is the set of values
already emitted). -/
def pyDedupAux : List String → List String → List String
  | [], _ => []
  | x :: xs, seen =>
    if seen.contains x then pyDedupAux xs seen
    else x :: pyDedupAux xs (x :: seen)

/-- Model of building a Python `set` from a list and iterating over it:
the distinct elements, in first-occurrence order. -/
def pyDedup (l : List String) : List String := pyDedupAux l []

/-- Model of `_existing_urls(collection)`: the set of distinct `url`
metadata fields of the stored entries, as a duplicate-free list. -/
def existing_urls (c : Collection) : List String := pyDedup (c.map Entry.url)

/-- Model of `_delete_url(collection, url)`: collect the ids of the
entries whose metadata url matches, and if there are any, delete them
(`collection.delete(ids=ids_to_delete)`), which can raise a storage
error. -/
def delete_url (env : Env) (c : Collection) (url : String) : Except Unit Collection :=
  let ids_to_delete := (c.filter (fun e => e.url == url)).map Entry.id
  if ids_to_delete.isEmpty then .ok c
  else if env.deleteFails ids_to_delete then .error ()
  else .ok (c.filter (fun e => !ids_to_delete.contains e.id))

/-- Zip the four parallel arrays of a `collection.add` call into stored
entries (truncating at the shortest, though `collection_add` only calls it
with equal lengths). -/
def zipEntries : List ChunkId → List String → List Vec → List (String × String × Nat) → List Entry
  | id :: ids, d :: ds, v :: vs, (u, t, n) :: ms =>
    ⟨id, d, v, u, t, n⟩ :: zipEntries ids ds vs ms
  | _, _, _, _ => []

/-- Model of `collection.add(documents=…, embeddings=…, metadatas=…,
ids=…)`: Chroma validates that the parallel arrays have equal lengths and
that the ids are pairwise distinct and not already present, raising
otherwise; on success the new entries are appended. -/
def collection_add (c : Collection) (documents : List String) (embeddings : List Vec)
    (metadatas : List (String × String × Nat)) (ids : List ChunkId) : Except Unit Collection :=
  if documents.length == embeddings.length
      && documents.length == metadatas.length
      && documents.length == ids.length
      && decide ids.Nodup
      && ids.all (fun i => !(c.any (fun e => e.id == i)))
  then .ok (c ++ zipEntries ids documents embeddings metadatas)
  else .error ()

/-! ## `_upsert_url` and `reindex` from `app/indexer.py` -/

/-- Model of `_upsert_url(collection, url)`, with its storage events:

    title, text = _fetch_clean(url)
    if not text: return 0
    docs, ids, metas built from enumerate(_chunk(text))
    emb = client.embeddings.create(...)         # failure propagates
    try: _delete_url(collection, url)
    except Exception: pass                      # failure swallowed
    collection.add(...)                         # failure propagates
    return len(docs)

The returned value is the pair of the chunk count and the updated
collection. -/
def upsert_urlT (env : Env) (c : Collection) (url : String) :
    List Event × Except Unit (Nat × Collection) :=
  let (title, text) := env.fetch url
  if text.isEmpty then ([], .ok (0, c))
  else
    match _chunk text 1000 120 with
    | .error e => ([], .error e)
    | .ok docs =>
      let ids := (List.range docs.length).map (fun n => sha1_id url n)
      let metas := (List.range docs.length).map (fun n => (url, title, n))
      match env.embed docs with
      | .error e => ([], .error e)
      | .ok vecs =>
        let c1 := match delete_url env c url with
          | .ok c2 => c2
          | .error _ => c
        match collection_add c1 docs vecs metas ids with
        | .error e => ([.del url, .add url ids], .error e)
        | .ok c2 => ([.del url, .add url ids], .ok (docs.length, c2))

/-- The `for url in removed: _delete_url(collection, url)` loop of
`reindex`; a delete failure propagates (the loop body has no
try/except). -/
def deleteLoop (env : Env) (c : Collection) : List String → List Event × Except Unit Collection
  | [] => ([], .ok c)
  | u :: us =>
    match delete_url env c u with
    | .error e => ([.del u], .error e)
    | .ok c1 =>
      let (evs, r) := deleteLoop env c1 us
      (.del u :: evs, r)

/-- The `for url in incoming: total_chunks += _upsert_url(collection, url)`
loop of `reindex`; an upsert failure propagates. -/
def upsertLoop (env : Env) (c : Collection) : List String → List Event × Except Unit (Nat × Collection)
  | [] => ([], .ok (0, c))
  | u :: us =>
    match upsert_urlT env c u with
    | (evs, .error e) => (evs, .error e)
    | (evs, .ok (k, c1)) =>
      match upsertLoop env c1 us with
      | (evs2, .error e) => (evs ++ evs2, .error e)
      | (evs2, .ok (total, c2)) => (evs ++ evs2, .ok (k + total, c2))

/-- The `removed = existing - incoming` set of a `reindex` run, in
iteration order. -/
def removedOf (incoming_urls : List String) (c : Collection) : List String :=
  (existing_urls c).filter (fun u => !(pyDedup incoming_urls).contains u)

/-- The `added = incoming - existing` set of a `reindex` run, in
iteration order. -/
def addedOf (incoming_urls : List String) (c : Collection) : List String :=
  (pyDedup incoming_urls).filter (fun u => !(existing_urls c).contains u)

/-- Model of `reindex(incoming_urls, collection)`, with its storage
events:

    existing = _existing_urls(collection)
    incoming = set(incoming_urls)
    removed = existing - incoming
    added = incoming - existing
    for url in removed: _delete_url(collection, url)
    total_chunks = 0
    for url in incoming:
        total_chunks += _upsert_url(collection, url)
        time.sleep(0.4)
    return {"added_urls_count": len(added),
            "removed_urls_count": len(removed),
            "total_indexed_chunks": total_chunks}

The result is the summary dict together with the final collection. -/
def reindexT (env : Env) (incoming_urls : List String) (c : Collection) :
    List Event × Except Unit (Summary × Collection) :=
  let incoming := pyDedup incoming_urls
  let removed := removedOf incoming_urls c
  let added := addedOf incoming_urls c
  match deleteLoop env c removed with
  | (evs, .error e) => (evs, .error e)
  | (evs, .ok c1) =>
    match upsertLoop env c1 incoming with
    | (evs2, .error e) => (evs ++ evs2, .error e)
    | (evs2, .ok (total, c2)) =>
      (evs ++ evs2,
       .ok ({ added_urls_count := added.length,
              removed_urls_count := removed.length,
              total_indexed_chunks := total }, c2))

/-! ## Specification-level observables of a run -/

/-- The entries `_upsert_url` writes for a url under environment `env`:
empty when the fetch fails or extracts no text, otherwise one entry per
chunk, with id `sha1_id url n` and metadata `(url, title, n)`. -/
def rowsOf (env : Env) (u : String) : List Entry :=
  let (title, text) := env.fetch u
  if text.isEmpty then []
  else
    let docs := chunkSegs text
    let vecs := match env.embed docs with | .ok v => v | .error _ => []
    zipEntries ((List.range docs.length).map (fun n => sha1_id u n)) docs vecs
      ((List.range docs.length).map (fun n => (u, title, n)))

/-- The chunk count `_upsert_url` returns for a url under environment
`env` (zero when the fetch fails or extracts no text). -/
def urlChunks (env : Env) (u : String) : Nat :=
  if (env.fetch u).2.isEmpty then 0 else (chunkSegs (env.fetch u).2).length

/-- A storage environment whose deletes never fail. -/
def noDeleteFail (env : Env) : Prop := ∀ ids, env.deleteFails ids = false

/-- An embedding provider that always answers, with one vector per
document. -/
def embedOk (env : Env) : Prop :=
  ∀ docs, ∃ vecs, env.embed docs = .ok vecs ∧ vecs.length = docs.length

/-- A collection whose stored ids are the digests this program computes:
every entry's id is the digest of its own url and chunk index.  Every
collection this program builds satisfies this. -/
def canonicalIds (c : Collection) : Prop := ∀ e ∈ c, e.id = sha1_id e.url e.chunk

/-! ## The query path: `ask` from `app/main.py` -/

/-- Retrieved chunk metadata as the query endpoint sees it (a Python dict
read with `.get`, so each field may be absent). -/
structure QMeta where
  url : Option String
  title : Option String
deriving DecidableEq, Repr

/-- The external collaborators of the ask endpoint: embedding the
question, the nearest-neighbour query (returning the already-unwrapped
first row of documents and metadatas), and the chat completion call. -/
structure QEnv where
  embed : String → Except Unit Vec
  query : Vec → Nat → List String × List QMeta
  complete : String → Except Unit String

/-- Events of one `ask` call: `completion prompt` for a
`client.chat.completions.create` call. -/
inductive AskEvent where
  | completion (prompt : String)
deriving DecidableEq, Repr

/-- Python `str(x)` on an optional string (`None` prints as `"None"`). -/
def pyStr : Option String → String
  | some s => s
  | none => "None"

/-- Python `a or b` on optional strings (`None` and `""` are falsy). -/
def pyOr (a b : Option String) : Option String :=
  match a with
  | some s => if s.isEmpty then b else some s
  | none => b

/-- The canned answer returned when retrieval yields no chunks. -/
def cannedAnswer : String := "I don’t have that yet. Try again after the next refresh."

/-- Model of the `ask` endpoint, with its completion events:

    emb = client.embeddings.create(input=[question])   # failure propagates
    res = collection.query(...)
    docs, metas = res["documents"][0], res["metadatas"][0]
    if not docs: return canned answer, []
    ctxs built from zip(docs, metas)
    chat = client.chat.completions.create(prompt)      # failure propagates
    return answer, [m.get("url") for m in metas if m.get("url")]
-/
def askT (env : QEnv) (question : String) (k : Nat) :
    List AskEvent × Except Unit (String × List String) :=
  match env.embed question with
  | .error e => ([], .error e)
  | .ok qvec =>
    let (docs, metas) := env.query qvec k
    if docs.isEmpty then ([], .ok (cannedAnswer, []))
    else
      let ctxs := (docs.zip metas).map (fun dm =>
        "[" ++ pyStr (pyOr dm.2.title dm.2.url) ++ "](" ++ pyStr dm.2.url ++ ")\n" ++ dm.1)
      let sys := "You are a helpful assistant for New Hope Church. Only answer using the provided context snippets. If the answer isn\x27t in the snippets, say you don’t know. Always end with a short list of the most relevant source links."
      let prompt := sys ++ "\n\nQuestion: " ++ question ++ "\n\nContext snippets:\n"
        ++ pyJoin "\n\n---\n\n" ctxs
        ++ "\n\nAnswer briefly, then list the most relevant sources as bullet links."
      match env.complete prompt with
      | .error e => ([.completion prompt], .error e)
      | .ok answer =>
        ([.completion prompt],
         .ok (answer, metas.filterMap (fun m =>
           match m.url with
           | some u => if u.isEmpty then none else some u
           | none => none)))

/-! ## Lemmas: word splitting -/

/-- Worker joining character-level words with single spaces (the
character-level image of `pyJoin " "`). -/
def charJoin : List (List Char) → List Char
  | [] => []
  | [w] => w
  | w :: ws => w ++ ' ' :: charJoin ws

theorem pyJoin_space_data (ws : List String) :
    (pyJoin " " ws).data = charJoin (ws.map String.data) := by
  induction ws with
  | nil => rfl
  | cons w ws ih =>
    cases ws with
    | nil => rfl
    | cons w2 ws2 =>
      show (w ++ " " ++ pyJoin " " (w2 :: ws2)).data = _
      rw [String.data_append, String.data_append, ih]
      simp [charJoin, List.append_assoc]

theorem splitWordsAux_nil (acc : List Char) :
    splitWordsAux [] acc = if acc.isEmpty then [] else [acc.reverse] := by
  cases acc <;> rfl

theorem splitWordsAux_cons (c : Char) (cs acc : List Char) :
    splitWordsAux (c :: cs) acc =
      if isPySpace c then
        (if acc.isEmpty then splitWordsAux cs [] else acc.reverse :: splitWordsAux cs [])
      else splitWordsAux cs (c :: acc) := rfl

theorem splitWordsAux_word (w : List Char) (hw : ∀ c ∈ w, isPySpace c = false) :
    ∀ cs acc, splitWordsAux (w ++ cs) acc = splitWordsAux cs (w.reverse ++ acc) := by
  induction w with
  | nil => intro cs acc; simp
  | cons c w ih =>
    intro cs acc
    have hc : isPySpace c = false := hw c (by simp)
    have hw' : ∀ d ∈ w, isPySpace d = false := fun d hd => hw d (by simp [hd])
    show splitWordsAux (c :: (w ++ cs)) acc = _
    simp only [splitWordsAux, hc, Bool.false_eq_true, if_false]
    rw [ih hw' cs (c :: acc)]
    simp

theorem splitWordsAux_charJoin (wls : List (List Char))
    (h : ∀ w ∈ wls, w ≠ [] ∧ ∀ c ∈ w, isPySpace c = false) :
    splitWordsAux (charJoin wls) [] = wls := by
  induction wls with
  | nil => rfl
  | cons w wls ih =>
    obtain ⟨hw, hwsp⟩ := h w (by simp)
    cases wls with
    | nil =>
      have h1 : charJoin [w] = w ++ [] := by simp [charJoin]
      rw [h1, splitWordsAux_word w hwsp [] [], splitWordsAux_nil]
      have hrev : (w.reverse ++ []).isEmpty = false := by
        cases w with
        | nil => exact absurd rfl hw
        | cons c w => simp
      rw [hrev]
      simp
    | cons w2 wls2 =>
      have h1 : charJoin (w :: w2 :: wls2) = w ++ ' ' :: charJoin (w2 :: wls2) := rfl
      rw [h1, splitWordsAux_word w hwsp _ [], splitWordsAux_cons]
      have hrev : (w.reverse ++ []).isEmpty = false := by
        cases w with
        | nil => exact absurd rfl hw
        | cons c w => simp
      simp only [show isPySpace ' ' = true from rfl, if_true, hrev, Bool.false_eq_true, if_false]
      rw [ih (fun x hx => h x (by simp [hx]))]
      simp

/-- Round trip: splitting a single-space join of non-empty whitespace-free
words recovers exactly those words. -/
theorem pySplit_pyJoin (ws : List String)
    (h : ∀ w ∈ ws, w.data ≠ [] ∧ ∀ c ∈ w.data, isPySpace c = false) :
    pySplit (pyJoin " " ws) = ws := by
  unfold pySplit
  have : (pyJoin " " ws).toList = charJoin (ws.map String.data) := pyJoin_space_data ws
  rw [this, splitWordsAux_charJoin]
  · rw [List.map_map]
    have : ∀ x ∈ ws, (String.mk ∘ String.data) x = id x := by
      intro x _; cases x; rfl
    rw [List.map_congr_left this, List.map_id]
  · intro w hw
    obtain ⟨x, hx, rfl⟩ := List.mem_map.mp hw
    exact h x hx

theorem splitWordsAux_sound (cs : List Char) :
    ∀ acc, (∀ c ∈ acc, isPySpace c = false) →
    ∀ w ∈ splitWordsAux cs acc, w ≠ [] ∧ ∀ c ∈ w, isPySpace c = false := by
  induction cs with
  | nil =>
    intro acc hacc w hw
    rw [splitWordsAux_nil] at hw
    rcases acc with _ | ⟨a, acc⟩
    · exact absurd hw (by simp)
    · simp only [List.isEmpty_cons, Bool.false_eq_true, if_false] at hw
      simp only [List.mem_singleton] at hw
      subst hw
      refine ⟨by simp, ?_⟩
      intro c hc
      exact hacc c (List.mem_reverse.mp hc)
  | cons c cs ih =>
    intro acc hacc w hw
    by_cases hc : isPySpace c = true
    · simp only [splitWordsAux, hc, if_true] at hw
      by_cases ha : acc.isEmpty
      · rw [if_pos ha] at hw
        exact ih [] (by simp) w hw
      · rw [if_neg ha] at hw
        rcases List.mem_cons.mp hw with h1 | h1
        · subst h1
          refine ⟨?_, ?_⟩
          · rcases acc with _ | ⟨a, acc⟩
            · simp at ha
            · simp
          · intro d hd
            exact hacc d (List.mem_reverse.mp hd)
        · exact ih [] (by simp) w h1
    · simp only [splitWordsAux, hc, if_false] at hw
      refine ih (c :: acc) ?_ w hw
      intro d hd
      rcases List.mem_cons.mp hd with h1 | h1
      · subst h1; simpa using hc
      · exact hacc d h1

/-- Every word `pySplit` produces is non-empty and whitespace-free. -/
theorem pySplit_sound (s : String) :
    ∀ w ∈ pySplit s, w.data ≠ [] ∧ ∀ c ∈ w.data, isPySpace c = false := by
  intro w hw
  obtain ⟨x, hx, rfl⟩ := List.mem_map.mp hw
  exact splitWordsAux_sound s.toList [] (by simp) x hx

/-! ## Lemmas: ranges and the chunker -/

theorem mem_pyRange0 {i : Nat} {stop : Nat} {step : Int}
    (h : i ∈ pyRange0 stop step) : i < stop := by
  unfold pyRange0 at h
  by_cases hs : 0 < step
  · rw [if_pos hs] at h
    obtain ⟨k, hk, rfl⟩ := List.mem_map.mp h
    rw [List.mem_range] at hk
    set s := step.toNat with hsdef
    have hs1 : 1 ≤ s := by
      rw [hsdef]
      omega
    have h1 : (stop + s - 1) / s * s ≤ stop + s - 1 := Nat.div_mul_le_self _ _
    have h2 : (k + 1) * s ≤ (stop + s - 1) / s * s := Nat.mul_le_mul_right s hk
    have h3 : 1 * s ≤ (stop + s - 1) / s * s := Nat.mul_le_mul_right s (by omega)
    have h4 : (k + 1) * s = k * s + s := by ring
    have h5 : 1 * s = s := by ring
    omega
  · rw [if_neg hs] at h
    exact absurd h (by simp)

theorem pyRange0_zero_mem {stop : Nat} {step : Int} (hstop : 0 < stop) (hstep : 0 < step) :
    0 ∈ pyRange0 stop step := by
  unfold pyRange0
  rw [if_pos hstep]
  refine List.mem_map.mpr ⟨0, ?_, by ring⟩
  rw [List.mem_range]
  have hs1 : 1 ≤ step.toNat := by omega
  have : 1 ≤ (stop + step.toNat - 1) / step.toNat := by
    rw [Nat.le_div_iff_mul_le (by omega)]
    omega
  omega

theorem _chunk_defaults_ok (text : String) :
    _chunk text 1000 120 = .ok (chunkSegs text) := by
  unfold _chunk chunkSegs
  by_cases h : (pySplit text).isEmpty
  · rw [if_pos h]
    have h0 : pySplit text = [] := List.isEmpty_iff.mp h
    rw [h0]
    rfl
  · rw [if_neg h]
    norm_num

theorem chunkSegs_ne_nil {text : String} (h : pySplit text ≠ []) :
    chunkSegs text ≠ [] := by
  unfold chunkSegs
  have hlen : 0 < (pySplit text).length := List.length_pos.mpr h
  have h0 : 0 ∈ pyRange0 (pySplit text).length 880 := pyRange0_zero_mem hlen (by norm_num)
  intro hc
  rw [List.map_eq_nil_iff] at hc
  rw [hc] at h0
  exact absurd h0 (by simp)

/-- A text with at least one word is not the empty string. -/
theorem ne_empty_of_pySplit_ne_nil {text : String} (h : pySplit text ≠ []) :
    text.isEmpty = false := by
  by_contra hc
  have : text.isEmpty = true := by
    cases htext : text.isEmpty
    · exact absurd htext hc
    · rfl
  have : text = "" := (String.isEmpty_iff text).mp this
  subst this
  exact h rfl

/-! ## Lemmas: deduplication -/

theorem mem_pyDedupAux (l : List String) :
    ∀ seen x, x ∈ pyDedupAux l seen ↔ x ∈ l ∧ x ∉ seen := by
  induction l with
  | nil => intro seen x; simp [pyDedupAux]
  | cons y ys ih =>
    intro seen x
    unfold pyDedupAux
    by_cases hy : seen.contains y
    · rw [if_pos hy, ih]
      have hymem : y ∈ seen := by simpa using hy
      constructor
      · rintro ⟨h1, h2⟩
        exact ⟨List.mem_cons_of_mem y h1, h2⟩
      · rintro ⟨h1, h2⟩
        rcases List.mem_cons.mp h1 with rfl | h1
        · exact absurd hymem h2
        · exact ⟨h1, h2⟩
    · rw [if_neg hy]
      have hynmem : y ∉ seen := by simpa using hy
      constructor
      · intro hx
        rcases List.mem_cons.mp hx with rfl | hx
        · exact ⟨List.mem_cons_self x ys, hynmem⟩
        · rw [ih] at hx
          obtain ⟨h1, h2⟩ := hx
          refine ⟨List.mem_cons_of_mem y h1, fun hc => h2 ?_⟩
          exact List.mem_cons_of_mem y hc
      · rintro ⟨h1, h2⟩
        rcases List.mem_cons.mp h1 with rfl | h1
        · exact List.mem_cons_self x _
        · by_cases hxy : x = y
          · subst hxy; exact List.mem_cons_self x _
          · refine List.mem_cons_of_mem y ?_
            rw [ih]
            exact ⟨h1, by simp [hxy, h2]⟩

theorem mem_pyDedup {l : List String} {x : String} : x ∈ pyDedup l ↔ x ∈ l := by
  unfold pyDedup
  rw [mem_pyDedupAux]
  simp

theorem nodup_pyDedupAux (l : List String) : ∀ seen, (pyDedupAux l seen).Nodup := by
  induction l with
  | nil => intro seen; simp [pyDedupAux]
  | cons y ys ih =>
    intro seen
    unfold pyDedupAux
    by_cases hy : seen.contains y
    · rw [if_pos hy]; exact ih seen
    · rw [if_neg hy]
      refine List.Nodup.cons ?_ (ih (y :: seen))
      intro hc
      rw [mem_pyDedupAux] at hc
      exact hc.2 (List.mem_cons_self y seen)

theorem nodup_pyDedup (l : List String) : (pyDedup l).Nodup := nodup_pyDedupAux l []

theorem mem_existing_urls {c : Collection} {x : String} :
    x ∈ existing_urls c ↔ ∃ e ∈ c, e.url = x := by
  unfold existing_urls
  rw [mem_pyDedup]
  constructor
  · intro h
    obtain ⟨e, he, hx⟩ := List.mem_map.mp h
    exact ⟨e, he, hx⟩
  · rintro ⟨e, he, rfl⟩
    exact List.mem_map.mpr ⟨e, he, rfl⟩

/-! ## Lemmas: entry zipping -/

theorem zipEntries_length : ∀ (ids : List ChunkId) (ds : List String) (vs : List Vec)
    (ms : List (String × String × Nat)),
    ids.length = ds.length → ds.length = vs.length → ds.length = ms.length →
    (zipEntries ids ds vs ms).length = ds.length := by
  intro ids ds vs ms
  induction ds generalizing ids vs ms with
  | nil =>
    intro h1 _ _
    rcases ids with _ | _
    · rfl
    · simp at h1
  | cons d ds ih =>
    intro h1 h2 h3
    rcases ids with _ | ⟨i, ids⟩
    · simp at h1
    rcases vs with _ | ⟨v, vs⟩
    · simp at h2
    rcases ms with _ | ⟨⟨u, t, n⟩, ms⟩
    · simp at h3
    show (zipEntries (i :: ids) (d :: ds) (v :: vs) ((u, t, n) :: ms)).length = _
    unfold zipEntries
    simp only [List.length_cons]
    rw [ih ids vs ms (by simpa using h1) (by simpa using h2) (by simpa using h3)]

theorem zipEntries_mem_url {u : String} : ∀ (ids : List ChunkId) (ds : List String)
    (vs : List Vec) (ms : List (String × String × Nat)),
    (∀ m ∈ ms, m.1 = u) → ∀ e ∈ zipEntries ids ds vs ms, e.url = u := by
  intro ids ds vs ms
  induction ds generalizing ids vs ms with
  | nil =>
    intro _ e he
    rcases ids with _ | _ <;> simp [zipEntries] at he
  | cons d ds ih =>
    intro hm e he
    rcases ids with _ | ⟨i, ids⟩
    · simp [zipEntries] at he
    rcases vs with _ | ⟨v, vs⟩
    · simp [zipEntries] at he
    rcases ms with _ | ⟨⟨mu, mt, mn⟩, ms⟩
    · simp [zipEntries] at he
    rw [show zipEntries (i :: ids) (d :: ds) (v :: vs) ((mu, mt, mn) :: ms)
        = ⟨i, d, v, mu, mt, mn⟩ :: zipEntries ids ds vs ms from rfl] at he
    rcases List.mem_cons.mp he with rfl | he
    · exact hm (mu, mt, mn) (List.mem_cons_self _ _)
    · exact ih ids vs ms (fun m hmm => hm m (List.mem_cons_of_mem _ hmm)) e he

theorem zipEntries_mem_id : ∀ (ids : List ChunkId) (ds : List String)
    (vs : List Vec) (ms : List (String × String × Nat)),
    ∀ e ∈ zipEntries ids ds vs ms, e.id ∈ ids := by
  intro ids ds vs ms
  induction ds generalizing ids vs ms with
  | nil =>
    intro e he
    rcases ids with _ | _ <;> simp [zipEntries] at he
  | cons d ds ih =>
    intro e he
    rcases ids with _ | ⟨i, ids⟩
    · simp [zipEntries] at he
    rcases vs with _ | ⟨v, vs⟩
    · simp [zipEntries] at he
    rcases ms with _ | ⟨⟨mu, mt, mn⟩, ms⟩
    · simp [zipEntries] at he
    rw [show zipEntries (i :: ids) (d :: ds) (v :: vs) ((mu, mt, mn) :: ms)
        = ⟨i, d, v, mu, mt, mn⟩ :: zipEntries ids ds vs ms from rfl] at he
    rcases List.mem_cons.mp he with rfl | he
    · exact List.mem_cons_self _ _
    · exact List.mem_cons_of_mem _ (ih ids vs ms e he)

theorem zipEntries_canonical : ∀ (ids : List ChunkId) (ds : List String)
    (vs : List Vec) (ms : List (String × String × Nat)),
    (∀ p ∈ ids.zip ms, p.1 = (p.2.1, p.2.2.2)) →
    ∀ e ∈ zipEntries ids ds vs ms, e.id = sha1_id e.url e.chunk := by
  intro ids ds vs ms
  induction ds generalizing ids vs ms with
  | nil =>
    intro _ e he
    rcases ids with _ | _ <;> simp [zipEntries] at he
  | cons d ds ih =>
    intro hp e he
    rcases ids with _ | ⟨i, ids⟩
    · simp [zipEntries] at he
    rcases vs with _ | ⟨v, vs⟩
    · simp [zipEntries] at he
    rcases ms with _ | ⟨⟨mu, mt, mn⟩, ms⟩
    · simp [zipEntries] at he
    rw [show zipEntries (i :: ids) (d :: ds) (v :: vs) ((mu, mt, mn) :: ms)
        = ⟨i, d, v, mu, mt, mn⟩ :: zipEntries ids ds vs ms from rfl] at he
    rcases List.mem_cons.mp he with rfl | he
    · exact hp (i, (mu, mt, mn)) (List.mem_cons_self _ _)
    · exact ih ids vs ms (fun p hpm => hp p (List.mem_cons_of_mem _ hpm)) e he

theorem zipEntries_map_id : ∀ (ids : List ChunkId) (ds : List String)
    (vs : List Vec) (ms : List (String × String × Nat)),
    ids.length = ds.length → ds.length = vs.length → ds.length = ms.length →
    (zipEntries ids ds vs ms).map Entry.id = ids := by
  intro ids ds vs ms
  induction ds generalizing ids vs ms with
  | nil =>
    intro h1 _ _
    rcases ids with _ | _
    · rfl
    · simp at h1
  | cons d ds ih =>
    intro h1 h2 h3
    rcases ids with _ | ⟨i, ids⟩
    · simp at h1
    rcases vs with _ | ⟨v, vs⟩
    · simp at h2
    rcases ms with _ | ⟨⟨u, t, n⟩, ms⟩
    · simp at h3
    show (zipEntries (i :: ids) (d :: ds) (v :: vs) ((u, t, n) :: ms)).map Entry.id = _
    unfold zipEntries
    simp only [List.map_cons, List.cons.injEq]
    exact ⟨by trivial, ih ids vs ms (by simpa using h1) (by simpa using h2) (by simpa using h3)⟩

/-! ## Lemmas: `_delete_url` -/

theorem delete_url_ok_subset {env : Env} {c c' : Collection} {u : String}
    (h : delete_url env c u = .ok c') : ∀ e ∈ c', e ∈ c := by
  unfold delete_url at h
  by_cases hids : (((c.filter (fun e => e.url == u)).map Entry.id).isEmpty)
  · rw [if_pos hids] at h
    cases h
    intro e he; exact he
  · rw [if_neg hids] at h
    by_cases hf : env.deleteFails ((c.filter (fun e => e.url == u)).map Entry.id)
    · rw [if_pos hf] at h; cases h
    · rw [if_neg hf] at h
      cases h
      intro e he
      exact List.mem_of_mem_filter he

theorem delete_url_ok_no_url {env : Env} {c c' : Collection} {u : String}
    (h : delete_url env c u = .ok c') : ∀ e ∈ c', e.url ≠ u := by
  unfold delete_url at h
  by_cases hids : (((c.filter (fun e => e.url == u)).map Entry.id).isEmpty)
  · rw [if_pos hids] at h
    cases h
    intro e he hurl
    have : e ∈ c.filter (fun e => e.url == u) :=
      List.mem_filter.mpr ⟨he, by simp [hurl]⟩
    have : e.id ∈ (c.filter (fun e => e.url == u)).map Entry.id :=
      List.mem_map.mpr ⟨e, this, rfl⟩
    rw [List.isEmpty_iff] at hids
    rw [hids] at this
    exact absurd this (by simp)
  · rw [if_neg hids] at h
    by_cases hf : env.deleteFails ((c.filter (fun e => e.url == u)).map Entry.id)
    · rw [if_pos hf] at h; cases h
    · rw [if_neg hf] at h
      cases h
      intro e he hurl
      obtain ⟨hec, hekeep⟩ := List.mem_filter.mp he
      have hmem : e.id ∈ (c.filter (fun e => e.url == u)).map Entry.id :=
        List.mem_map.mpr ⟨e, List.mem_filter.mpr ⟨hec, by simp [hurl]⟩, rfl⟩
      rw [Bool.not_eq_true', ← Bool.not_eq_true] at hekeep
      exact hekeep (by simpa using hmem)

theorem delete_url_keeps {env : Env} {c c' : Collection} {u : String} {e : Entry}
    (he : e ∈ c) (hid : ∀ r ∈ c, r.url = u → r.id ≠ e.id)
    (h : delete_url env c u = .ok c') : e ∈ c' := by
  unfold delete_url at h
  by_cases hids : (((c.filter (fun e => e.url == u)).map Entry.id).isEmpty)
  · rw [if_pos hids] at h
    cases h
    exact he
  · rw [if_neg hids] at h
    by_cases hf : env.deleteFails ((c.filter (fun e => e.url == u)).map Entry.id)
    · rw [if_pos hf] at h; cases h
    · rw [if_neg hf] at h
      cases h
      refine List.mem_filter.mpr ⟨he, ?_⟩
      rw [Bool.not_eq_true']
      rw [Bool.eq_false_iff]
      intro hc
      have hmem : e.id ∈ (c.filter (fun e => e.url == u)).map Entry.id := List.elem_iff.mp hc
      obtain ⟨r, hr, hrid⟩ := List.mem_map.mp hmem
      obtain ⟨hrc, hru⟩ := List.mem_filter.mp hr
      exact hid r hrc (by simpa using hru) hrid

theorem delete_url_noFail {env : Env} (hnf : noDeleteFail env) (c : Collection) (u : String) :
    ∃ c', delete_url env c u = .ok c' := by
  unfold delete_url
  by_cases hids : (((c.filter (fun e => e.url == u)).map Entry.id).isEmpty)
  · rw [if_pos hids]; exact ⟨c, rfl⟩
  · rw [if_neg hids, hnf _]
    exact ⟨_, by rw [if_neg (by simp)]⟩

theorem delete_url_canonical_filter {env : Env} {c c' : Collection} {u : String}
    (hcan : canonicalIds c) (h : delete_url env c u = .ok c') :
    c' = c.filter (fun e => !(e.url == u)) := by
  unfold delete_url at h
  by_cases hids : (((c.filter (fun e => e.url == u)).map Entry.id).isEmpty)
  · rw [if_pos hids] at h
    cases h
    rw [List.isEmpty_iff, List.map_eq_nil_iff, List.filter_eq_nil_iff] at hids
    refine (List.filter_eq_self.mpr ?_).symm
    intro e he
    simp only [Bool.not_eq_eq_eq_not, Bool.not_true, beq_eq_false_iff_ne, ne_eq]
    intro hurl
    exact hids e he (by simp [hurl])
  · rw [if_neg hids] at h
    by_cases hf : env.deleteFails ((c.filter (fun e => e.url == u)).map Entry.id)
    · rw [if_pos hf] at h; cases h
    · rw [if_neg hf] at h
      cases h
      refine List.filter_congr ?_
      intro e he
      have haux : ((c.filter (fun e => e.url == u)).map Entry.id).contains e.id
          = (e.url == u) := by
        by_cases hurl : e.url = u
        · have hmem : e.id ∈ (c.filter (fun e => e.url == u)).map Entry.id :=
            List.mem_map.mpr ⟨e, List.mem_filter.mpr ⟨he, by simp [hurl]⟩, rfl⟩
          rw [show (e.url == u) = true by simp [hurl]]
          exact List.elem_iff.mpr hmem
        · rw [show (e.url == u) = false by simpa using hurl]
          rw [Bool.eq_false_iff]
          intro hc
          have hmem : e.id ∈ (c.filter (fun e => e.url == u)).map Entry.id :=
            List.elem_iff.mp hc
          obtain ⟨r, hr, hrid⟩ := List.mem_map.mp hmem
          obtain ⟨hrc, hru⟩ := List.mem_filter.mp hr
          have hru' : r.url = u := by simpa using hru
          have h1 : r.id = sha1_id r.url r.chunk := hcan r hrc
          have h2 : e.id = sha1_id e.url e.chunk := hcan e he
          rw [h1, h2] at hrid
          unfold sha1_id at hrid
          have : r.url = e.url := congrArg Prod.fst hrid
          exact hurl (by rw [← this, hru'])
      rw [haux]

/-! ## Lemmas: `collection.add` -/

theorem collection_add_ok {c c' : Collection} {ds : List String} {vs : List Vec}
    {ms : List (String × String × Nat)} {ids : List ChunkId}
    (h : collection_add c ds vs ms ids = .ok c') :
    c' = c ++ zipEntries ids ds vs ms ∧ ds.length = vs.length ∧ ds.length = ms.length ∧
    ids.length = ds.length ∧ ids.Nodup ∧ ∀ i ∈ ids, ∀ e ∈ c, e.id ≠ i := by
  unfold collection_add at h
  by_cases hcond : (ds.length == vs.length && ds.length == ms.length && ds.length == ids.length
      && decide ids.Nodup && ids.all (fun i => !(c.any (fun e => e.id == i)))) = true
  · rw [if_pos hcond] at h
    cases h
    simp only [Bool.and_eq_true, beq_iff_eq, List.all_eq_true, Bool.not_eq_eq_eq_not,
      Bool.not_true, List.any_eq_false, decide_eq_true_eq, beq_eq_false_iff_ne, ne_eq]
      at hcond
    obtain ⟨⟨⟨⟨h1, h2⟩, h3⟩, h4⟩, h5⟩ := hcond
    refine ⟨rfl, h1, h2, h3.symm, h4, ?_⟩
    intro i hi e he
    exact h5 i hi e he
  · rw [if_neg hcond] at h
    cases h

/-! ## Lemmas: `rowsOf` -/

theorem rowsOf_empty {env : Env} {u : String} (h : (env.fetch u).2.isEmpty = true) :
    rowsOf env u = [] := by
  unfold rowsOf
  rcases hfe : env.fetch u with ⟨title, text⟩
  rw [hfe] at h
  simp only at h ⊢
  rw [h]
  simp

theorem rowsOf_url (env : Env) (u : String) : ∀ e ∈ rowsOf env u, e.url = u := by
  unfold rowsOf
  rcases hfe : env.fetch u with ⟨title, text⟩
  simp only
  by_cases ht : text.isEmpty
  · rw [ht]; intro e he; exact absurd he (by simp)
  · rw [show text.isEmpty = false by simpa using ht]
    simp only [Bool.false_eq_true, if_false]
    refine zipEntries_mem_url _ _ _ _ ?_
    intro m hm
    obtain ⟨n, _, rfl⟩ := List.mem_map.mp hm
    rfl

theorem rowsOf_canonical (env : Env) (u : String) :
    ∀ e ∈ rowsOf env u, e.id = sha1_id e.url e.chunk := by
  unfold rowsOf
  rcases hfe : env.fetch u with ⟨title, text⟩
  simp only
  by_cases ht : text.isEmpty
  · rw [ht]; intro e he; exact absurd he (by simp)
  · rw [show text.isEmpty = false by simpa using ht]
    simp only [Bool.false_eq_true, if_false]
    refine zipEntries_canonical _ _ _ _ ?_
    intro p hp
    rw [List.zip_map' (fun n => sha1_id u n) (fun n => (u, title, n))
      (List.range (chunkSegs text).length)] at hp
    obtain ⟨n, _, rfl⟩ := List.mem_map.mp hp
    rfl

theorem rowsOf_id (env : Env) (u : String) : ∀ e ∈ rowsOf env u, ∃ n, e.id = sha1_id u n := by
  unfold rowsOf
  rcases hfe : env.fetch u with ⟨title, text⟩
  simp only
  by_cases ht : text.isEmpty
  · rw [ht]; intro e he; exact absurd he (by simp)
  · rw [show text.isEmpty = false by simpa using ht]
    simp only [Bool.false_eq_true, if_false]
    intro e he
    have := zipEntries_mem_id _ _ _ _ e he
    obtain ⟨n, _, hn⟩ := List.mem_map.mp this
    exact ⟨n, hn.symm⟩

theorem rowsOf_ne_nil {env : Env} {u : String} (hne : (env.fetch u).2.isEmpty = false)
    (hw : pySplit (env.fetch u).2 ≠ [])
    (hemb : ∃ vecs, env.embed (chunkSegs (env.fetch u).2) = .ok vecs ∧
      vecs.length = (chunkSegs (env.fetch u).2).length) :
    rowsOf env u ≠ [] := by
  obtain ⟨vecs, hv, hvl⟩ := hemb
  unfold rowsOf
  rcases hfe : env.fetch u with ⟨title, text⟩
  rw [hfe] at hne hw hv hvl
  simp only at hne hw hv hvl ⊢
  rw [hne]
  simp only [Bool.false_eq_true, if_false]
  rw [hv]
  intro hc
  have hlen : (zipEntries ((List.range (chunkSegs text).length).map (fun n => sha1_id u n))
      (chunkSegs text) vecs
      ((List.range (chunkSegs text).length).map (fun n => (u, title, n)))).length
      = (chunkSegs text).length := by
    refine zipEntries_length _ _ _ _ (by simp) (by rw [hvl]) (by simp)
  rw [hc] at hlen
  have : chunkSegs text ≠ [] := chunkSegs_ne_nil hw
  have : 0 < (chunkSegs text).length := List.length_pos.mpr this
  simp at hlen
  omega

/-! ## Lemmas: `_upsert_url` -/

theorem upsert_url_empty_fetch {env : Env} {c : Collection} {u : String}
    (h : (env.fetch u).2.isEmpty = true) :
    upsert_urlT env c u = ([], .ok (0, c)) := by
  unfold upsert_urlT
  rcases hfe : env.fetch u with ⟨title, text⟩
  rw [hfe] at h
  simp only at h ⊢
  rw [h]
  simp

theorem upsert_url_events_shape (env : Env) (c : Collection) (u : String) :
    ∀ ev ∈ (upsert_urlT env c u).1, ev = .del u ∨ ∃ ids, ev = .add u ids := by
  unfold upsert_urlT
  rcases hfe : env.fetch u with ⟨title, text⟩
  simp only
  by_cases ht : text.isEmpty
  · rw [ht]; intro ev hev; exact absurd hev (by simp)
  · rw [show text.isEmpty = false by simpa using ht]
    simp only [Bool.false_eq_true, if_false]
    rcases hch : _chunk text 1000 120 with e | docs
    · intro ev hev; exact absurd hev (by simp)
    · simp only
      rcases hemb : env.embed docs with e | vecs
      · intro ev hev; exact absurd hev (by simp)
      · simp only
        rcases hadd : collection_add
            (match delete_url env c u with | .ok c2 => c2 | .error _ => c)
            docs vecs ((List.range docs.length).map (fun n => (u, title, n)))
            ((List.range docs.length).map (fun n => sha1_id u n)) with e | c2
        · simp only
          intro ev hev
          rcases List.mem_cons.mp hev with rfl | hev
          · exact Or.inl rfl
          · rcases List.mem_cons.mp hev with rfl | hev
            · exact Or.inr ⟨_, rfl⟩
            · exact absurd hev (by simp)
        · simp only
          intro ev hev
          rcases List.mem_cons.mp hev with rfl | hev
          · exact Or.inl rfl
          · rcases List.mem_cons.mp hev with rfl | hev
            · exact Or.inr ⟨_, rfl⟩
            · exact absurd hev (by simp)

theorem upsert_url_ok {env : Env} {c : Collection} {u : String} {k : Nat} {c2 : Collection}
    (hne : (env.fetch u).2.isEmpty = false)
    (h : (upsert_urlT env c u).2 = .ok (k, c2)) :
    ∃ vecs c1,
      env.embed (chunkSegs (env.fetch u).2) = .ok vecs ∧
      vecs.length = (chunkSegs (env.fetch u).2).length ∧
      (delete_url env c u = .ok c1 ∨ c1 = c) ∧
      (∀ e ∈ c1, e ∈ c) ∧
      (∀ i ∈ (List.range (chunkSegs (env.fetch u).2).length).map (fun n => sha1_id u n),
        ∀ e ∈ c1, e.id ≠ i) ∧
      k = (chunkSegs (env.fetch u).2).length ∧
      c2 = c1 ++ rowsOf env u := by
  rcases hfe : env.fetch u with ⟨title, text⟩
  rw [hfe] at hne
  simp only at hne ⊢
  unfold upsert_urlT at h
  rw [hfe] at h
  simp only [hne, Bool.false_eq_true, if_false] at h
  rw [_chunk_defaults_ok] at h
  simp only at h
  rcases hemb : env.embed (chunkSegs text) with e | vecs
  · rw [hemb] at h; simp at h
  · rw [hemb] at h
    simp only at h
    have hrows : rowsOf env u = zipEntries
        ((List.range (chunkSegs text).length).map (fun n => sha1_id u n))
        (chunkSegs text) vecs
        ((List.range (chunkSegs text).length).map (fun n => (u, title, n))) := by
      unfold rowsOf
      rw [hfe]
      simp only [hne, Bool.false_eq_true, if_false, hemb]
    rcases hdel : delete_url env c u with e | c1
    · rw [hdel] at h
      simp only at h
      rcases hadd : collection_add c (chunkSegs text) vecs
          ((List.range (chunkSegs text).length).map (fun n => (u, title, n)))
          ((List.range (chunkSegs text).length).map (fun n => sha1_id u n)) with e | c2'
      · rw [hadd] at h; simp at h
      · rw [hadd] at h
        simp only [Except.ok.injEq, Prod.mk.injEq] at h
        obtain ⟨hk, hc2⟩ := h
        obtain ⟨hzip, hl1, hl2, hl3, hnd, hfresh⟩ := collection_add_ok hadd
        refine ⟨vecs, c, rfl, hl1.symm, Or.inr rfl, fun e he => he, ?_, hk.symm, ?_⟩
        · intro i hi e he
          exact hfresh i hi e he
        · rw [← hc2, hzip, hrows]
    · rw [hdel] at h
      simp only at h
      rcases hadd : collection_add c1 (chunkSegs text) vecs
          ((List.range (chunkSegs text).length).map (fun n => (u, title, n)))
          ((List.range (chunkSegs text).length).map (fun n => sha1_id u n)) with e | c2'
      · rw [hadd] at h; simp at h
      · rw [hadd] at h
        simp only [Except.ok.injEq, Prod.mk.injEq] at h
        obtain ⟨hk, hc2⟩ := h
        obtain ⟨hzip, hl1, hl2, hl3, hnd, hfresh⟩ := collection_add_ok hadd
        refine ⟨vecs, c1, rfl, hl1.symm, Or.inl rfl, delete_url_ok_subset hdel, ?_,
          hk.symm, ?_⟩
        · intro i hi e he
          exact hfresh i hi e he
        · rw [← hc2, hzip, hrows]

theorem sha1_id_injective (u : String) : Function.Injective (fun n => sha1_id u n) := by
  intro a b hab
  have := congrArg Prod.snd hab
  simpa [sha1_id] using this

theorem upsert_url_total (env : Env) (c : Collection) (u : String)
    (hcan : canonicalIds c) (hnf : noDeleteFail env) (hek : embedOk env) :
    (upsert_urlT env c u).2 = .ok (urlChunks env u,
      if (env.fetch u).2.isEmpty then c
      else c.filter (fun e => !(e.url == u)) ++ rowsOf env u) := by
  by_cases ht : (env.fetch u).2.isEmpty
  · rw [upsert_url_empty_fetch ht]
    unfold urlChunks
    rw [ht]
    simp
  · have hne0 : (env.fetch u).2.isEmpty = false := by simpa using ht
    rcases hfe : env.fetch u with ⟨title, text⟩
    have hne : text.isEmpty = false := by
      rw [hfe] at hne0
      simpa using hne0
    obtain ⟨vecs, hv, hvl⟩ := hek (chunkSegs text)
    obtain ⟨c1, hdel⟩ := delete_url_noFail hnf c u
    have hc1 : c1 = c.filter (fun e => !(e.url == u)) :=
      delete_url_canonical_filter hcan hdel
    have hurlChunks : urlChunks env u = (chunkSegs text).length := by
      unfold urlChunks
      rw [hfe]
      simp only
      rw [hne]
      simp
    have hcond : ((chunkSegs text).length == vecs.length
        && (chunkSegs text).length ==
          ((List.range (chunkSegs text).length).map (fun n => (u, title, n))).length
        && (chunkSegs text).length ==
          ((List.range (chunkSegs text).length).map (fun n => sha1_id u n)).length
        && decide ((List.range (chunkSegs text).length).map (fun n => sha1_id u n)).Nodup
        && ((List.range (chunkSegs text).length).map (fun n => sha1_id u n)).all
            (fun i => !(c1.any (fun e => e.id == i)))) = true := by
      simp only [Bool.and_eq_true, beq_iff_eq, decide_eq_true_eq, List.all_eq_true,
        Bool.not_eq_eq_eq_not, Bool.not_true, List.any_eq_false, beq_eq_false_iff_ne, ne_eq,
        List.length_map, List.length_range]
      refine ⟨⟨⟨⟨hvl.symm, by trivial⟩, by trivial⟩, ?_⟩, ?_⟩
      · exact (List.nodup_range _).map (sha1_id_injective u)
      · intro i hi e he
        obtain ⟨n, _, rfl⟩ := List.mem_map.mp hi
        rw [hc1] at he
        obtain ⟨hec, hekeep⟩ := List.mem_filter.mp he
        have hu : e.url ≠ u := by simpa using hekeep
        have : e.id = sha1_id e.url e.chunk := hcan e hec
        rw [this]
        unfold sha1_id
        intro hcontra
        exact hu (congrArg Prod.fst hcontra)
    have hadd : collection_add c1 (chunkSegs text) vecs
        ((List.range (chunkSegs text).length).map (fun n => (u, title, n)))
        ((List.range (chunkSegs text).length).map (fun n => sha1_id u n))
        = .ok (c1 ++ zipEntries
            ((List.range (chunkSegs text).length).map (fun n => sha1_id u n))
            (chunkSegs text) vecs
            ((List.range (chunkSegs text).length).map (fun n => (u, title, n)))) := by
      unfold collection_add
      rw [if_pos hcond]
    have hrows : rowsOf env u = zipEntries
        ((List.range (chunkSegs text).length).map (fun n => sha1_id u n))
        (chunkSegs text) vecs
        ((List.range (chunkSegs text).length).map (fun n => (u, title, n))) := by
      unfold rowsOf
      rw [hfe]
      simp only
      rw [hne]
      simp only [Bool.false_eq_true, if_false]
      rw [hv]
    unfold upsert_urlT
    rw [hfe]
    simp only
    rw [hne]
    simp only [Bool.false_eq_true, if_false]
    rw [_chunk_defaults_ok]
    simp only
    rw [hv]
    simp only
    rw [hdel]
    simp only
    rw [hadd]
    simp only
    rw [hurlChunks, hrows, hc1]

/-! ## Lemmas: canonical collections -/

theorem canonicalIds_subset {c c' : Collection} (h : canonicalIds c)
    (hsub : ∀ e ∈ c', e ∈ c) : canonicalIds c' :=
  fun e he => h e (hsub e he)

theorem canonicalIds_append {c1 c2 : Collection} (h1 : canonicalIds c1)
    (h2 : canonicalIds c2) : canonicalIds (c1 ++ c2) := by
  intro e he
  rcases List.mem_append.mp he with h | h
  · exact h1 e h
  · exact h2 e h

theorem canonicalIds_rowsOf (env : Env) (u : String) : canonicalIds (rowsOf env u) :=
  fun e he => rowsOf_canonical env u e he

theorem rowsOf_mem_ids (env : Env) (u : String) :
    ∀ e ∈ rowsOf env u,
      e.id ∈ (List.range (chunkSegs (env.fetch u).2).length).map (fun n => sha1_id u n) := by
  unfold rowsOf
  rcases hfe : env.fetch u with ⟨title, text⟩
  simp only
  by_cases ht : text.isEmpty
  · rw [ht]
    intro e he
    exact absurd he (by simp)
  · rw [show text.isEmpty = false by simpa using ht]
    simp only [Bool.false_eq_true, if_false]
    intro e he
    exact zipEntries_mem_id _ _ _ _ e he

/-! ## Lemmas: the upsert loop -/

theorem upsertLoop_cons (env : Env) (c : Collection) (u : String) (us : List String) :
    upsertLoop env c (u :: us) =
      match upsert_urlT env c u with
      | (evs, .error e) => (evs, .error e)
      | (evs, .ok (k, c1)) =>
        match upsertLoop env c1 us with
        | (evs2, .error e) => (evs ++ evs2, .error e)
        | (evs2, .ok (total, c2)) => (evs ++ evs2, .ok (k + total, c2)) := rfl

theorem upsertLoop_events (env : Env) (us : List String) : ∀ (c : Collection),
    ∀ ev ∈ (upsertLoop env c us).1, ∃ u ∈ us, ev = .del u ∨ ∃ ids, ev = .add u ids := by
  induction us with
  | nil =>
    intro c ev hev
    exact absurd hev (by simp [upsertLoop])
  | cons u us ih =>
    intro c ev hev
    rw [upsertLoop_cons] at hev
    rcases hup : upsert_urlT env c u with ⟨evs, r⟩
    rw [hup] at hev
    have hshape : ∀ ev ∈ evs, ev = .del u ∨ ∃ ids, ev = .add u ids := by
      intro ev hev
      have := upsert_url_events_shape env c u ev (by rw [hup]; exact hev)
      exact this
    rcases r with e | ⟨k, c1⟩
    · simp only at hev
      exact ⟨u, by simp, hshape ev hev⟩
    · simp only at hev
      rcases hloop : upsertLoop env c1 us with ⟨evs2, r2⟩
      rw [hloop] at hev
      rcases r2 with e | ⟨t, c2⟩
      · simp only at hev
        rcases List.mem_append.mp hev with h1 | h1
        · exact ⟨u, by simp, hshape ev h1⟩
        · obtain ⟨w, hw, hwev⟩ := ih c1 ev (by rw [hloop]; exact h1)
          exact ⟨w, by simp [hw], hwev⟩
      · simp only at hev
        rcases List.mem_append.mp hev with h1 | h1
        · exact ⟨u, by simp, hshape ev h1⟩
        · obtain ⟨w, hw, hwev⟩ := ih c1 ev (by rw [hloop]; exact h1)
          exact ⟨w, by simp [hw], hwev⟩

theorem upsertLoop_ok_elim {env : Env} {c ctot : Collection} {u : String} {us : List String}
    {t : Nat} (h : (upsertLoop env c (u :: us)).2 = .ok (t, ctot)) :
    ∃ k c1 t2, (upsert_urlT env c u).2 = .ok (k, c1) ∧
      (upsertLoop env c1 us).2 = .ok (t2, ctot) ∧ t = k + t2 := by
  rw [upsertLoop_cons] at h
  rcases hup : upsert_urlT env c u with ⟨evs, r⟩
  rw [hup] at h
  rcases r with e | ⟨k, c1⟩
  · simp at h
  · simp only at h
    rcases hloop : upsertLoop env c1 us with ⟨evs2, r2⟩
    rw [hloop] at h
    rcases r2 with e | ⟨t2, c2⟩
    · simp at h
    · simp only [Except.ok.injEq, Prod.mk.injEq] at h
      obtain ⟨ht, hc⟩ := h
      subst hc
      exact ⟨k, c1, t2, rfl, by rw [hloop], ht.symm⟩

theorem upsertLoop_ok_domain (env : Env) (us : List String) : ∀ (c ctot : Collection) (t : Nat),
    (upsertLoop env c us).2 = .ok (t, ctot) → ∀ e ∈ ctot, e ∈ c ∨ e.url ∈ us := by
  induction us with
  | nil =>
    intro c ctot t h e he
    have : ctot = c := by
      simp only [upsertLoop, Except.ok.injEq, Prod.mk.injEq] at h
      exact h.2.symm
    subst this
    exact Or.inl he
  | cons u us ih =>
    intro c ctot t h e he
    obtain ⟨k, c1, t2, hup, hloop, _⟩ := upsertLoop_ok_elim h
    rcases ih c1 ctot t2 hloop e he with h1 | h1
    · by_cases ht : (env.fetch u).2.isEmpty
      · rw [upsert_url_empty_fetch ht] at hup
        simp only [Except.ok.injEq, Prod.mk.injEq] at hup
        rw [← hup.2] at h1
        exact Or.inl h1
      · have hne : (env.fetch u).2.isEmpty = false := by simpa using ht
        obtain ⟨vecs, c0, _, _, _, hsub, _, _, hc1⟩ := upsert_url_ok hne hup
        rw [hc1] at h1
        rcases List.mem_append.mp h1 with h2 | h2
        · exact Or.inl (hsub e h2)
        · exact Or.inr (by simp [rowsOf_url env u e h2])
    · exact Or.inr (by simp [h1])

theorem upsertLoop_keeps (env : Env) (us : List String) (hnd : us.Nodup) :
    ∀ (c ctot : Collection) (t : Nat) (S : List Entry),
    (upsertLoop env c us).2 = .ok (t, ctot) →
    (∀ r ∈ S, r ∈ c) →
    (∀ r ∈ S, r.url ∉ us) →
    (∀ e ∈ c, e.url ∈ us → ∀ r ∈ S, e.id ≠ r.id) →
    ∀ r ∈ S, r ∈ ctot := by
  induction us with
  | nil =>
    intro c ctot t S h hsub _ _ r hr
    have : ctot = c := by
      simp only [upsertLoop, Except.ok.injEq, Prod.mk.injEq] at h
      exact h.2.symm
    subst this
    exact hsub r hr
  | cons u us ih =>
    intro c ctot t S h hsub hurl hid r hr
    obtain ⟨k, c1, t2, hup, hloop, _⟩ := upsertLoop_ok_elim h
    have hnd2 : us.Nodup := (List.nodup_cons.mp hnd).2
    have hund : u ∉ us := (List.nodup_cons.mp hnd).1
    by_cases ht : (env.fetch u).2.isEmpty
    · rw [upsert_url_empty_fetch ht] at hup
      simp only [Except.ok.injEq, Prod.mk.injEq] at hup
      rw [← hup.2] at hloop
      refine ih hnd2 c ctot t2 S hloop hsub ?_ ?_ r hr
      · intro r hr hc
        exact hurl r hr (List.mem_cons_of_mem u hc)
      · intro e he heu r hr
        exact hid e he (List.mem_cons_of_mem u heu) r hr
    · have hne : (env.fetch u).2.isEmpty = false := by simpa using ht
      obtain ⟨vecs, c0, hemb, hvl, hdel, hsub0, hfresh, hk, hc1⟩ := upsert_url_ok hne hup
      have hSc0 : ∀ r ∈ S, r ∈ c0 := by
        intro r hr
        rcases hdel with hdel | hdel
        · refine delete_url_keeps (hsub r hr) ?_ hdel
          intro rr hrr hrru
          exact hid rr hrr (by simp [hrru]) r hr
        · rw [hdel]
          exact hsub r hr
      have hSc1 : ∀ r ∈ S, r ∈ c1 := by
        intro r hr
        rw [hc1]
        exact List.mem_append_left _ (hSc0 r hr)
      refine ih hnd2 c1 ctot t2 S hloop hSc1 ?_ ?_ r hr
      · intro r hr hc
        exact hurl r hr (List.mem_cons_of_mem u hc)
      · intro e he heu r2 hr2
        rw [hc1] at he
        rcases List.mem_append.mp he with h1 | h1
        · exact hid e (hsub0 e h1) (List.mem_cons_of_mem u heu) r2 hr2
        · have : e.url = u := rowsOf_url env u e h1
          rw [this] at heu
          exact absurd heu hund

theorem upsertLoop_added (env : Env) (us : List String) (hnd : us.Nodup) :
    ∀ (c ctot : Collection) (t : Nat),
    (upsertLoop env c us).2 = .ok (t, ctot) →
    ∀ u ∈ us, (env.fetch u).2.isEmpty = false →
    (∃ vecs, env.embed (chunkSegs (env.fetch u).2) = .ok vecs ∧
      vecs.length = (chunkSegs (env.fetch u).2).length) ∧
    (∀ r ∈ rowsOf env u, r ∈ ctot) := by
  induction us with
  | nil =>
    intro c ctot t _ u hu
    exact absurd hu (by simp)
  | cons w us ih =>
    intro c ctot t h u hu hne
    obtain ⟨k, c1, t2, hup, hloop, _⟩ := upsertLoop_ok_elim h
    have hnd2 : us.Nodup := (List.nodup_cons.mp hnd).2
    have hwnd : w ∉ us := (List.nodup_cons.mp hnd).1
    rcases List.mem_cons.mp hu with rfl | hu
    · obtain ⟨vecs, c0, hemb, hvl, hdel, hsub0, hfresh, hk, hc1⟩ := upsert_url_ok hne hup
      refine ⟨⟨vecs, hemb, hvl⟩, ?_⟩
      refine upsertLoop_keeps env us hnd2 c1 ctot t2 (rowsOf env u) hloop ?_ ?_ ?_
      · intro r hr
        rw [hc1]
        exact List.mem_append_right _ hr
      · intro r hr hc
        rw [rowsOf_url env u r hr] at hc
        exact absurd hc hwnd
      · intro e he heu r hr
        rw [hc1] at he
        rcases List.mem_append.mp he with h1 | h1
        · exact fun hc => hfresh r.id (rowsOf_mem_ids env u r hr) e h1 hc
        · rw [rowsOf_url env u e h1] at heu
          exact absurd heu hwnd
    · exact ih hnd2 c1 ctot t2 hloop u hu hne

theorem upsertLoop_total (env : Env) (hnf : noDeleteFail env) (hek : embedOk env)
    (us : List String) : ∀ c, canonicalIds c →
    ∃ ctot, (upsertLoop env c us).2 = .ok ((us.map (urlChunks env)).sum, ctot) ∧
      canonicalIds ctot := by
  induction us with
  | nil =>
    intro c hcan
    exact ⟨c, by simp [upsertLoop], hcan⟩
  | cons u us ih =>
    intro c hcan
    have hup := upsert_url_total env c u hcan hnf hek
    set cnext := if (env.fetch u).2.isEmpty then c
      else c.filter (fun e => !(e.url == u)) ++ rowsOf env u with hcnext
    have hcannext : canonicalIds cnext := by
      rw [hcnext]
      by_cases ht : (env.fetch u).2.isEmpty
      · rw [if_pos ht]; exact hcan
      · rw [if_neg ht]
        refine canonicalIds_append ?_ (canonicalIds_rowsOf env u)
        exact canonicalIds_subset hcan (fun e he => List.mem_of_mem_filter he)
    obtain ⟨ctot, hloop, hcantot⟩ := ih cnext hcannext
    refine ⟨ctot, ?_, hcantot⟩
    rw [upsertLoop_cons]
    rcases hupT : upsert_urlT env c u with ⟨evs, r⟩
    rw [hupT] at hup
    simp only at hup
    rw [hup]
    simp only
    rcases hloopT : upsertLoop env cnext us with ⟨evs2, r2⟩
    rw [hloopT] at hloop
    simp only at hloop
    rw [hloop]
    simp only [List.map_cons, List.sum_cons]

theorem upsertLoop_exact (env : Env) (hnf : noDeleteFail env) (hek : embedOk env)
    (us : List String) : ∀ c, us.Nodup → (∀ u ∈ us, (env.fetch u).2.isEmpty = false) →
    canonicalIds c →
    (upsertLoop env c us).2 = .ok ((us.map (urlChunks env)).sum,
      c.filter (fun e => !(us.contains e.url)) ++ us.flatMap (rowsOf env)) := by
  induction us with
  | nil =>
    intro c _ _ _
    simp [upsertLoop, List.filter_eq_self.mpr]
  | cons u us ih =>
    intro c hnd hall hcan
    have hnd2 : us.Nodup := (List.nodup_cons.mp hnd).2
    have hund : u ∉ us := (List.nodup_cons.mp hnd).1
    have hne : (env.fetch u).2.isEmpty = false := hall u (by simp)
    have hup := upsert_url_total env c u hcan hnf hek
    rw [hne] at hup
    simp only [Bool.false_eq_true, if_false] at hup
    set cnext := c.filter (fun e => !(e.url == u)) ++ rowsOf env u with hcnext
    have hcannext : canonicalIds cnext := by
      rw [hcnext]
      refine canonicalIds_append ?_ (canonicalIds_rowsOf env u)
      exact canonicalIds_subset hcan (fun e he => List.mem_of_mem_filter he)
    have hloop := ih cnext hnd2 (fun w hw => hall w (by simp [hw])) hcannext
    rw [upsertLoop_cons]
    rcases hupT : upsert_urlT env c u with ⟨evs, r⟩
    rw [hupT] at hup
    simp only at hup
    rw [hup]
    simp only
    rcases hloopT : upsertLoop env cnext us with ⟨evs2, r2⟩
    rw [hloopT] at hloop
    simp only at hloop
    rw [hloop]
    simp only [List.map_cons, List.sum_cons, List.flatMap_cons]
    have hstep : cnext.filter (fun e => !(us.contains e.url)) ++ us.flatMap (rowsOf env)
        = c.filter (fun e => !((u :: us).contains e.url))
          ++ (rowsOf env u ++ us.flatMap (rowsOf env)) := by
      rw [hcnext, List.filter_append]
      have h1 : (rowsOf env u).filter (fun e => !(us.contains e.url)) = rowsOf env u := by
        refine List.filter_eq_self.mpr ?_
        intro e he
        rw [rowsOf_url env u e he]
        simp only [Bool.not_eq_eq_eq_not, Bool.not_true]
        rw [Bool.eq_false_iff]
        intro hc
        exact hund (List.elem_iff.mp hc)
      have h2 : (c.filter (fun e => !(e.url == u))).filter (fun e => !(us.contains e.url))
          = c.filter (fun e => !((u :: us).contains e.url)) := by
        rw [List.filter_filter]
        refine List.filter_congr ?_
        intro e _
        rw [List.contains_cons]
        rw [Bool.not_or]
        rw [Bool.and_comm]
      rw [h1, h2, List.append_assoc]
    rw [hstep]

/-! ## Lemmas: the delete loop -/

theorem deleteLoop_cons (env : Env) (c : Collection) (u : String) (us : List String) :
    deleteLoop env c (u :: us) =
      match delete_url env c u with
      | .error e => ([Event.del u], .error e)
      | .ok c1 =>
        let p := deleteLoop env c1 us
        (Event.del u :: p.1, p.2) := by
  rw [deleteLoop]

theorem deleteLoop_events (env : Env) (us : List String) : ∀ c : Collection,
    ∀ ev ∈ (deleteLoop env c us).1, ∃ u ∈ us, ev = .del u := by
  induction us with
  | nil =>
    intro c ev hev
    exact absurd hev (by simp [deleteLoop])
  | cons u us ih =>
    intro c ev hev
    rw [deleteLoop_cons] at hev
    rcases hdel : delete_url env c u with e | c1
    · rw [hdel] at hev
      simp only [List.mem_singleton] at hev
      exact ⟨u, by simp, hev⟩
    · rw [hdel] at hev
      simp only [List.mem_cons] at hev
      rcases hev with rfl | hev
      · exact ⟨u, by simp, rfl⟩
      · obtain ⟨w, hw, hwe⟩ := ih c1 ev hev
        exact ⟨w, by simp [hw], hwe⟩

theorem deleteLoop_ok_domain (env : Env) (us : List String) : ∀ c c1 : Collection,
    (deleteLoop env c us).2 = .ok c1 → ∀ e ∈ c1, e ∈ c ∧ e.url ∉ us := by
  induction us with
  | nil =>
    intro c c1 h e he
    have : c1 = c := by
      simp only [deleteLoop, Except.ok.injEq] at h
      exact h.symm
    subst this
    exact ⟨he, by simp⟩
  | cons u us ih =>
    intro c c1 h e he
    rw [deleteLoop_cons] at h
    rcases hdel : delete_url env c u with e0 | c0
    · rw [hdel] at h; simp at h
    · rw [hdel] at h
      simp only at h
      obtain ⟨h1, h2⟩ := ih c0 c1 h e he
      refine ⟨delete_url_ok_subset hdel e h1, ?_⟩
      intro hc
      rcases List.mem_cons.mp hc with h3 | h3
      · exact delete_url_ok_no_url hdel e h1 h3
      · exact h2 h3

theorem deleteLoop_exact (env : Env) (hnf : noDeleteFail env) (us : List String) :
    ∀ c : Collection, canonicalIds c →
    deleteLoop env c us = (us.map Event.del, .ok (c.filter (fun e => !(us.contains e.url)))) := by
  induction us with
  | nil =>
    intro c _
    simp [deleteLoop, List.filter_eq_self.mpr]
  | cons u us ih =>
    intro c hcan
    obtain ⟨c0, hdel⟩ := delete_url_noFail hnf c u
    have hc0 : c0 = c.filter (fun e => !(e.url == u)) := delete_url_canonical_filter hcan hdel
    have hcan0 : canonicalIds c0 :=
      canonicalIds_subset hcan (delete_url_ok_subset hdel)
    rw [deleteLoop_cons, hdel]
    simp only
    rw [ih c0 hcan0]
    simp only [List.map_cons]
    refine congrArg _ ?_
    refine congrArg _ ?_
    rw [hc0, List.filter_filter]
    refine List.filter_congr ?_
    intro e _
    rw [List.contains_cons, Bool.not_or, Bool.and_comm]

/-! ## Lemmas: `reindex` assembly -/

theorem reindexT_ok_elim {env : Env} {us : List String} {c : Collection} {s : Summary}
    {c2 : Collection} (h : (reindexT env us c).2 = .ok (s, c2)) :
    ∃ c1 total, (deleteLoop env c (removedOf us c)).2 = .ok c1 ∧
      (upsertLoop env c1 (pyDedup us)).2 = .ok (total, c2) ∧
      s = ⟨(addedOf us c).length, (removedOf us c).length, total⟩ := by
  unfold reindexT at h
  simp only at h
  rcases hdl : deleteLoop env c (removedOf us c) with ⟨evs, r⟩
  rw [hdl] at h
  rcases r with e | c1
  · simp at h
  · simp only at h
    rcases hul : upsertLoop env c1 (pyDedup us) with ⟨evs2, r2⟩
    rw [hul] at h
    rcases r2 with e | ⟨total, c2'⟩
    · simp at h
    · simp only [Except.ok.injEq, Prod.mk.injEq] at h
      obtain ⟨hs, hc⟩ := h
      subst hc
      exact ⟨c1, total, rfl, by rw [hul], hs.symm⟩

theorem reindexT_events_shape (env : Env) (us : List String) (c : Collection) :
    (reindexT env us c).1 = (deleteLoop env c (removedOf us c)).1 ∨
    ∃ c1, (deleteLoop env c (removedOf us c)).2 = .ok c1 ∧
      (reindexT env us c).1
        = (deleteLoop env c (removedOf us c)).1 ++ (upsertLoop env c1 (pyDedup us)).1 := by
  unfold reindexT
  simp only
  rcases hdl : deleteLoop env c (removedOf us c) with ⟨evs, r⟩
  rcases r with e | c1
  · exact Or.inl rfl
  · right
    refine ⟨c1, rfl, ?_⟩
    simp only
    rcases hul : upsertLoop env c1 (pyDedup us) with ⟨evs2, r2⟩
    rcases r2 with e | ⟨total, c2⟩ <;> rfl

theorem reindexT_total (env : Env) (us : List String) (c : Collection)
    (hnf : noDeleteFail env) (hek : embedOk env) (hcan : canonicalIds c) :
    ∃ ctot, (reindexT env us c).2 = .ok
      ({ added_urls_count := (addedOf us c).length,
         removed_urls_count := (removedOf us c).length,
         total_indexed_chunks := ((pyDedup us).map (urlChunks env)).sum }, ctot) ∧
      canonicalIds ctot := by
  have hdl := deleteLoop_exact env hnf (removedOf us c) c hcan
  set c1 := c.filter (fun e => !((removedOf us c).contains e.url)) with hc1
  have hcan1 : canonicalIds c1 := by
    rw [hc1]
    exact canonicalIds_subset hcan (fun e he => List.mem_of_mem_filter he)
  obtain ⟨ctot, hul, hcantot⟩ := upsertLoop_total env hnf hek (pyDedup us) c1 hcan1
  refine ⟨ctot, ?_, hcantot⟩
  unfold reindexT
  simp only
  rw [hdl]
  simp only
  rcases hulT : upsertLoop env c1 (pyDedup us) with ⟨evs2, r2⟩
  rw [hulT] at hul
  simp only at hul
  rw [hul]

theorem reindexT_exact (env : Env) (us : List String) (c : Collection)
    (hnf : noDeleteFail env) (hek : embedOk env) (hcan : canonicalIds c)
    (hall : ∀ u ∈ us, (env.fetch u).2.isEmpty = false) :
    (reindexT env us c).2 = .ok
      ({ added_urls_count := (addedOf us c).length,
         removed_urls_count := (removedOf us c).length,
         total_indexed_chunks := ((pyDedup us).map (urlChunks env)).sum },
       (pyDedup us).flatMap (rowsOf env)) := by
  have hdl := deleteLoop_exact env hnf (removedOf us c) c hcan
  set c1 := c.filter (fun e => !((removedOf us c).contains e.url)) with hc1
  have hcan1 : canonicalIds c1 := by
    rw [hc1]
    exact canonicalIds_subset hcan (fun e he => List.mem_of_mem_filter he)
  have hall' : ∀ u ∈ pyDedup us, (env.fetch u).2.isEmpty = false := by
    intro u hu
    exact hall u (mem_pyDedup.mp hu)
  have hul := upsertLoop_exact env hnf hek (pyDedup us) c1 (nodup_pyDedup us) hall' hcan1
  have hnil : c1.filter (fun e => !((pyDedup us).contains e.url)) = [] := by
    rw [List.filter_eq_nil_iff]
    intro e he
    rw [hc1] at he
    obtain ⟨hec, hkeep⟩ := List.mem_filter.mp he
    have hnotrem : e.url ∉ removedOf us c := by
      intro hc
      have : (removedOf us c).contains e.url = true := List.elem_iff.mpr hc
      rw [this] at hkeep
      exact absurd hkeep (by simp)
    have hex : e.url ∈ existing_urls c := mem_existing_urls.mpr ⟨e, hec, rfl⟩
    have hinc : e.url ∈ pyDedup us := by
      by_contra hninc
      refine hnotrem ?_
      unfold removedOf
      refine List.mem_filter.mpr ⟨hex, ?_⟩
      simp only [Bool.not_eq_eq_eq_not, Bool.not_true]
      rw [Bool.eq_false_iff]
      intro hcon
      exact hninc (List.elem_iff.mp hcon)
    simp only [Bool.not_eq_eq_eq_not, Bool.not_true]
    intro hfalse
    rw [Bool.eq_false_iff] at hfalse
    exact hfalse (List.elem_iff.mpr hinc)
  rw [hnil] at hul
  simp only [List.nil_append] at hul
  unfold reindexT
  simp only
  rw [hdl]
  simp only
  rcases hulT : upsertLoop env c1 (pyDedup us) with ⟨evs2, r2⟩
  rw [hulT] at hul
  simp only at hul
  rw [hul]

/-! ## Claim theorems: the chunker -/

theorem slice_subset_of_pySplit (text : String) (a b : Nat) :
    ∀ w ∈ ((pySplit text).drop a).take b, w ∈ pySplit text := by
  intro w hw
  exact List.drop_subset a (pySplit text) (List.take_subset b _ hw)

theorem pySplit_slice_roundtrip (text : String) (a b : Nat) :
    pySplit (pyJoin " " (((pySplit text).drop a).take b)) = ((pySplit text).drop a).take b := by
  refine pySplit_pyJoin _ ?_
  intro w hw
  exact pySplit_sound text w (slice_subset_of_pySplit text a b w hw)

/-- C5: on a text of exactly 2500 whitespace-delimited words,
`_chunk(text, 1000, 120)` yields exactly 3 segments; segment `i` covers
words `[i*880, i*880+1000)`, the first two segments contain 1000 words
each, consecutive segments overlap by 120 words, and the final segment is
shorter (740 words). -/
theorem chunk_2500_words (text : String) (h : (pySplit text).length = 2500) :
    ∃ s0 s1 s2, _chunk text 1000 120 = .ok [s0, s1, s2] ∧
      pySplit s0 = ((pySplit text).drop (0 * 880)).take 1000 ∧
      pySplit s1 = ((pySplit text).drop (1 * 880)).take 1000 ∧
      pySplit s2 = ((pySplit text).drop (2 * 880)).take 1000 ∧
      (pySplit s0).length = 1000 ∧ (pySplit s1).length = 1000 ∧
      (pySplit s2).length = 740 ∧ 740 < 1000 ∧
      (pySplit s0).drop 880 = (pySplit s1).take 120 ∧
      (pySplit s1).drop 880 = (pySplit s2).take 120 := by
  have hr : pyRange0 (pySplit text).length 880 = [0, 880, 1760] := by
    rw [h]
    decide
  have hsegs : chunkSegs text =
      [pyJoin " " (((pySplit text).drop 0).take 1000),
       pyJoin " " (((pySplit text).drop 880).take 1000),
       pyJoin " " (((pySplit text).drop 1760).take 1000)] := by
    unfold chunkSegs
    rw [hr]
    rfl
  refine ⟨_, _, _, by rw [_chunk_defaults_ok, hsegs], ?_, ?_, ?_, ?_, ?_, ?_, by norm_num,
    ?_, ?_⟩
  · rw [pySplit_slice_roundtrip]
  · rw [pySplit_slice_roundtrip]
  · rw [pySplit_slice_roundtrip]
  · rw [pySplit_slice_roundtrip]
    simp only [List.length_take, List.length_drop, h]
    omega
  · rw [pySplit_slice_roundtrip]
    simp only [List.length_take, List.length_drop, h]
    omega
  · rw [pySplit_slice_roundtrip]
    simp only [List.length_take, List.length_drop, h]
    omega
  · rw [pySplit_slice_roundtrip, pySplit_slice_roundtrip]
    rw [List.drop_zero, List.drop_take 1000 880, List.take_take]
    norm_num
  · rw [pySplit_slice_roundtrip, pySplit_slice_roundtrip]
    rw [List.drop_take 1000 880, List.drop_drop, List.take_take]
    norm_num

/-- A 2500-word text used to instantiate the chunking claim. -/
def text2500 : String := pyJoin " " (List.replicate 2500 "w")

theorem text2500_words : (pySplit text2500).length = 2500 := by
  unfold text2500
  rw [pySplit_pyJoin]
  · rw [List.length_replicate]
  · intro w hw
    rw [List.eq_of_mem_replicate hw]
    exact ⟨by decide, by decide⟩

/-- Witness for C5 at a concrete 2500-word text. -/
theorem chunk_2500_words_witness :
    (pySplit text2500).length = 2500 ∧
    ∃ s0 s1 s2, _chunk text2500 1000 120 = .ok [s0, s1, s2] ∧
      (pySplit s0).length = 1000 ∧ (pySplit s1).length = 1000 ∧
      (pySplit s2).length = 740 := by
  obtain ⟨s0, s1, s2, hc, _, _, _, h0, h1, h2, _, _, _⟩ :=
    chunk_2500_words text2500 text2500_words
  exact ⟨text2500_words, s0, s1, s2, hc, h0, h1, h2⟩

theorem pyJoin_space_ne_empty (w : String) (rest : List String) (hw : w.data ≠ []) :
    pyJoin " " (w :: rest) ≠ "" := by
  cases rest with
  | nil =>
    intro hc
    exact hw (congrArg String.data hc)
  | cons w2 rest2 =>
    intro hc
    have : (w ++ " " ++ pyJoin " " (w2 :: rest2)).data = "".data := congrArg String.data hc
    rw [String.data_append, String.data_append] at this
    have : w.data = [] := by
      have happ := List.append_eq_nil.mp (List.append_eq_nil.mp this).1
      exact happ.1
    exact hw this

/-- C9: `_chunk` at the default configuration never yields an empty
segment: empty input yields zero segments rather than one empty segment,
and no zero-length trailing segment is emitted (in particular when the
word count is an exact multiple of the step). -/
theorem chunk_no_empty_segments (text : String) :
    ∃ segs, _chunk text 1000 120 = .ok segs ∧ (∀ s ∈ segs, s ≠ "") ∧
      (text = "" → segs = []) := by
  refine ⟨chunkSegs text, _chunk_defaults_ok text, ?_, ?_⟩
  · intro s hs
    unfold chunkSegs at hs
    obtain ⟨i, hi, rfl⟩ := List.mem_map.mp hs
    have hilt : i < (pySplit text).length := mem_pyRange0 hi
    have hlen : (((pySplit text).drop i).take 1000).length = 
        min 1000 ((pySplit text).length - i) := by
      rw [List.length_take, List.length_drop]
    have hpos : 0 < (((pySplit text).drop i).take 1000).length := by
      rw [hlen]
      omega
    rcases hslice : ((pySplit text).drop i).take 1000 with _ | ⟨w, rest⟩
    · rw [hslice] at hpos
      simp at hpos
    · refine pyJoin_space_ne_empty w rest ?_
      have hwmem : w ∈ pySplit text := by
        refine slice_subset_of_pySplit text i 1000 w ?_
        rw [hslice]
        exact List.mem_cons_self _ _
      exact (pySplit_sound text w hwmem).1
  · intro htext
    subst htext
    rfl

/-- Witness for C9 at two concrete inputs (a 2-word text and the empty
text). -/
theorem chunk_no_empty_segments_witness :
    (∃ segs, _chunk "alpha beta" 1000 120 = .ok segs ∧ (∀ s ∈ segs, s ≠ "") ∧
      ("alpha beta" = "" → segs = [])) ∧
    (∃ segs, _chunk "" 1000 120 = .ok segs ∧ (∀ s ∈ segs, s ≠ "") ∧
      ("" = "" → segs = [])) :=
  ⟨chunk_no_empty_segments "alpha beta", chunk_no_empty_segments ""⟩

/-- C6 counterexample: with `overlap > max_words` (step negative) the
chunker does not signal a configuration error — it silently succeeds,
yielding zero segments for a non-empty text.  The claim that every call
with `overlap >= max_words` fails fast with a configuration error is
therefore false as stated. -/
theorem chunk_overlap_ge_cex : _chunk "some words here" 1000 1200 = .ok [] := by
  rfl

/-- C6 amended: with `overlap = max_words` and at least one word the call
does raise (Python's `range` rejects the zero step, a `ValueError`); but
with `overlap > max_words`, or with an input containing no words, the call
silently yields zero segments instead of signalling a configuration error.
It never loops indefinitely (the model is a total function). -/
theorem chunk_overlap_ge_amended (text : String) (max_tokens overlap : Nat)
    (h : max_tokens ≤ overlap) :
    _chunk text max_tokens overlap =
      if overlap = max_tokens ∧ pySplit text ≠ [] then .error () else .ok [] := by
  unfold _chunk
  by_cases hw : (pySplit text).isEmpty
  · rw [if_pos hw]
    have hnil : pySplit text = [] := List.isEmpty_iff.mp hw
    rw [if_neg (by simp [hnil])]
  · rw [if_neg hw]
    have hne : pySplit text ≠ [] := by
      intro hc
      rw [hc] at hw
      exact hw (by simp)
    by_cases heq : overlap = max_tokens
    · have hstep : (max_tokens : Int) - (overlap : Int) = 0 := by omega
      rw [if_pos hstep, if_pos ⟨heq, hne⟩]
    · have hstep : ¬((max_tokens : Int) - (overlap : Int) = 0) := by omega
      rw [if_neg hstep]
      have hneg : ¬(0 < (max_tokens : Int) - (overlap : Int)) := by omega
      unfold pyRange0
      rw [if_neg hneg]
      rw [if_neg (by simp [heq])]
      rfl

/-- Witness for the amended C6 at a concrete call with
`overlap > max_words`. -/
theorem chunk_overlap_ge_amended_witness :
    1000 ≤ 1001 ∧ _chunk "alpha beta gamma" 1000 1001 = .ok [] := by
  refine ⟨by norm_num, ?_⟩
  rw [chunk_overlap_ge_amended "alpha beta gamma" 1000 1001 (by norm_num)]
  rw [if_neg (by norm_num)]

/-! ## Claim theorems: upsert frame condition and the query path -/

/-- C10: when the fetch fails or extracts empty text, `_upsert_url`
returns 0 and performs no index mutation at all: the collection is
returned unchanged and no storage call (no delete, no add) is made. -/
theorem upsert_empty_fetch_no_mutation (env : Env) (c : Collection) (u : String)
    (h : (env.fetch u).2 = "") :
    upsert_urlT env c u = ([], .ok (0, c)) :=
  upsert_url_empty_fetch (by rw [h]; rfl)

def envFrame : Env :=
  { fetch := fun _ => ("", ""),
    embed := fun docs => .ok (docs.map (fun _ => ([] : Vec))),
    deleteFails := fun _ => false }

def colFrame : Collection := [⟨("kept", 0), "doc", [], "kept", "t", 0⟩]

/-- Witness for C10 at a concrete environment whose fetch yields empty
text, over a non-empty collection that must stay untouched. -/
theorem upsert_empty_fetch_no_mutation_witness :
    (envFrame.fetch "u").2 = "" ∧
    upsert_urlT envFrame colFrame "u" = ([], .ok (0, colFrame)) :=
  ⟨rfl, upsert_empty_fetch_no_mutation envFrame colFrame "u" rfl⟩

/-- C7: when the vector-index query returns zero chunks, `ask` returns
the canned not-yet-available answer with an empty source list, and the
completion provider is never called (the event trace is empty). -/
theorem ask_empty_retrieval (env : QEnv) (question : String) (k : Nat) (qvec : Vec)
    (hq : env.embed question = .ok qvec) (hdocs : (env.query qvec k).1 = []) :
    askT env question k = ([], .ok (cannedAnswer, [])) := by
  obtain ⟨embedQ, queryQ, completeQ⟩ := env
  simp only at hq hdocs
  unfold askT
  simp only
  rw [hq]
  simp only
  rcases hQ : queryQ qvec k with ⟨docs, metas⟩
  rw [hQ] at hdocs
  simp only at hdocs
  subst hdocs
  simp

def qenvEmpty : QEnv :=
  { embed := fun _ => .ok [0],
    query := fun _ _ => ([], []),
    complete := fun _ => .ok "unused" }

/-- Witness for C7 at a concrete query environment with an empty index. -/
theorem ask_empty_retrieval_witness :
    qenvEmpty.embed "when is the service?" = .ok [0] ∧
    (qenvEmpty.query [0] 6).1 = [] ∧
    askT qenvEmpty "when is the service?" 6 = ([], .ok (cannedAnswer, [])) :=
  ⟨rfl, rfl, ask_empty_retrieval qenvEmpty "when is the service?" 6 [0] rfl rfl⟩

/-! ## Claim theorems: ordering of deletions and additions -/

/-- C4: within a single `reindex` run, every `_delete_url` call for a URL
of the removed set (`existing − incoming`) happens strictly before every
`collection.add` call: in the run's event trace, any removal deletion
precedes any addition. -/
theorem reindex_deletes_before_adds (env : Env) (us : List String) (c : Collection)
    (i j : Nat) (u u2 : String) (ids : List ChunkId)
    (hdel : (reindexT env us c).1[i]? = some (.del u))
    (hrem : u ∈ removedOf us c)
    (hadd : (reindexT env us c).1[j]? = some (.add u2 ids)) :
    i < j := by
  have hnotin : u ∉ us := by
    intro hc
    have := List.mem_filter.mp hrem
    have h2 := this.2
    simp only [Bool.not_eq_eq_eq_not, Bool.not_true] at h2
    rw [Bool.eq_false_iff] at h2
    exact h2 (List.elem_iff.mpr (mem_pyDedup.mpr hc))
  rcases reindexT_events_shape env us c with hsh | ⟨c1, hok, hsh⟩
  · rw [hsh] at hadd
    have hmem : Event.add u2 ids ∈ (deleteLoop env c (removedOf us c)).1 :=
      List.getElem?_mem hadd
    obtain ⟨w, _, hw⟩ := deleteLoop_events env (removedOf us c) c _ hmem
    exact absurd hw (by simp)
  · rw [hsh] at hdel hadd
    set ev1 := (deleteLoop env c (removedOf us c)).1 with hev1
    set ev2 := (upsertLoop env c1 (pyDedup us)).1 with hev2
    have hjge : ev1.length ≤ j := by
      by_contra hlt
      push_neg at hlt
      rw [List.getElem?_append, if_pos hlt] at hadd
      have hmem : Event.add u2 ids ∈ ev1 := List.getElem?_mem hadd
      obtain ⟨w, _, hw⟩ := deleteLoop_events env (removedOf us c) c _ hmem
      exact absurd hw (by simp)
    have hilt : i < ev1.length := by
      by_contra hge
      push_neg at hge
      rw [List.getElem?_append_right hge] at hdel
      have hmem : Event.del u ∈ ev2 := List.getElem?_mem hdel
      obtain ⟨w, hwmem, hw⟩ := upsertLoop_events env (pyDedup us) c1 _ hmem
      rcases hw with hw | ⟨ids2, hw⟩
      · have : u = w := by
          injection hw
        subst this
        exact hnotin (mem_pyDedup.mp hwmem)
      · exact absurd hw (by simp)
    omega

def envOrder : Env :=
  { fetch := fun u => ("title " ++ u, "fresh content for " ++ u),
    embed := fun docs => .ok (docs.map (fun _ => ([] : Vec))),
    deleteFails := fun _ => false }

def colOrder : Collection := [⟨("stale", 0), "old doc", [], "stale", "t", 0⟩]

/-- Witness for C4 at a concrete run: the trace deletes the stale URL at
index 0 and the addition for the fresh URL happens at index 2. -/
theorem reindex_deletes_before_adds_witness :
    (reindexT envOrder ["fresh"] colOrder).1[0]? = some (.del "stale") ∧
    "stale" ∈ removedOf ["fresh"] colOrder ∧
    (reindexT envOrder ["fresh"] colOrder).1[2]? = some (.add "fresh" [("fresh", 0)]) ∧
    (0 : Nat) < 2 :=
  ⟨rfl, by decide,
   rfl,
   reindex_deletes_before_adds envOrder ["fresh"] colOrder 0 2 "stale" "fresh"
     [("fresh", 0)] (by rfl) (by decide) (by rfl)⟩

/-! ## Claim theorems: coverage -/

/-- C1: if a `reindex(U, collection)` run completes and every URL of `U`
fetches non-empty text (equivalently, text containing at least one word —
`_fetch_clean` returns stripped text), then the set `_existing_urls`
returns afterwards is exactly the set of `U`: every URL of `U` has its
current chunks present in the index and every URL not in `U` has zero
entries remaining. -/
theorem reindex_coverage (env : Env) (us : List String) (c : Collection)
    (s : Summary) (c2 : Collection)
    (hok : (reindexT env us c).2 = .ok (s, c2))
    (hfetch : ∀ u ∈ us, pySplit (env.fetch u).2 ≠ []) :
    (∀ x, x ∈ existing_urls c2 ↔ x ∈ us) ∧
    (∀ u ∈ us, rowsOf env u ≠ [] ∧ ∀ r ∈ rowsOf env u, r ∈ c2) ∧
    (∀ e ∈ c2, e.url ∈ us) := by
  obtain ⟨c1, total, hdl, hul, hs⟩ := reindexT_ok_elim hok
  have hdomain : ∀ e ∈ c2, e.url ∈ us := by
    intro e he
    rcases upsertLoop_ok_domain env (pyDedup us) c1 c2 total hul e he with h1 | h1
    · obtain ⟨hec, hnotrem⟩ := deleteLoop_ok_domain env (removedOf us c) c c1 hdl e h1
      by_contra hnus
      refine hnotrem ?_
      unfold removedOf
      refine List.mem_filter.mpr ⟨mem_existing_urls.mpr ⟨e, hec, rfl⟩, ?_⟩
      simp only [Bool.not_eq_eq_eq_not, Bool.not_true]
      rw [Bool.eq_false_iff]
      intro hcon
      exact hnus (mem_pyDedup.mp (List.elem_iff.mp hcon))
    · exact mem_pyDedup.mp h1
  have hpresent : ∀ u ∈ us, rowsOf env u ≠ [] ∧ ∀ r ∈ rowsOf env u, r ∈ c2 := by
    intro u hu
    have hne : (env.fetch u).2.isEmpty = false := ne_empty_of_pySplit_ne_nil (hfetch u hu)
    obtain ⟨hemb, hsub⟩ := upsertLoop_added env (pyDedup us) (nodup_pyDedup us) c1 c2 total
      hul u (mem_pyDedup.mpr hu) hne
    exact ⟨rowsOf_ne_nil hne (hfetch u hu) hemb, hsub⟩
  refine ⟨?_, hpresent, hdomain⟩
  intro x
  constructor
  · intro hx
    obtain ⟨e, he, rfl⟩ := mem_existing_urls.mp hx
    exact hdomain e he
  · intro hx
    obtain ⟨hne, hsub⟩ := hpresent x hx
    rcases hrows : rowsOf env x with _ | ⟨r, rest⟩
    · exact absurd hrows hne
    · have hr : r ∈ c2 := hsub r (by rw [hrows]; exact List.mem_cons_self _ _)
      have : r.url = x := rowsOf_url env x r (by rw [hrows]; exact List.mem_cons_self _ _)
      exact mem_existing_urls.mpr ⟨r, hr, this⟩

def envCover : Env :=
  { fetch := fun u => ("title of " ++ u, "hello world"),
    embed := fun docs => .ok (docs.map (fun _ => ([] : Vec))),
    deleteFails := fun _ => false }

/-- Witness for C1 at a concrete healthy environment over the empty
collection. -/
theorem reindex_coverage_witness :
    ∃ s c2, (reindexT envCover ["a", "b"] []).2 = .ok (s, c2) ∧
      (∀ x, x ∈ existing_urls c2 ↔ x ∈ ["a", "b"]) ∧
      (∀ e ∈ c2, e.url ∈ ["a", "b"]) := by
  have hcov := reindex_coverage envCover ["a", "b"] []
    { added_urls_count := 2, removed_urls_count := 0, total_indexed_chunks := 2 }
    [⟨("a", 0), "hello world", [], "a", "title of a", 0⟩,
     ⟨("b", 0), "hello world", [], "b", "title of b", 0⟩]
    (by rfl) (by decide)
  exact ⟨_, _, by rfl, hcov.1, hcov.2.2⟩

/-! ## Claim theorems: failure isolation -/

def envEmbedFail : Env :=
  { fetch := fun u => ("title of " ++ u, "hello world"),
    embed := fun _ => .error (),
    deleteFails := fun _ => false }

/-- C2 counterexample: an embedding-call failure for the first URL aborts
the whole `reindex` run — the exception propagates out of `_upsert_url`
(there is no try/except around `client.embeddings.create`), so the second
URL is never processed and no summary is returned.  The claim that an
embedding failure for one URL does not abort the run is therefore false
as stated. -/
theorem reindex_embed_failure_aborts :
    (reindexT envEmbedFail ["a", "b"] []).2 = .error () := by
  rfl

/-- C2 amended: a failure of the *fetch* for one URL does not abort the
run — that URL contributes zero chunks, every remaining URL is still
processed, and `total_indexed_chunks` counts only the successfully
fetched URLs.  (A failure of the embedding call, by contrast, propagates
and aborts the run, as the counterexample shows.)  Stated for a storage
whose deletes succeed, an embedding provider that answers every batch,
and a collection whose ids are the program's own digests. -/
theorem reindex_fetch_failure_isolated (env : Env) (us : List String) (c : Collection)
    (hnf : noDeleteFail env) (hek : embedOk env) (hcan : canonicalIds c) :
    ∃ s c2, (reindexT env us c).2 = .ok (s, c2) ∧
      s.total_indexed_chunks = ((pyDedup us).map (urlChunks env)).sum ∧
      (∀ u, (env.fetch u).2 = "" → urlChunks env u = 0) ∧
      (∀ u ∈ us, pySplit (env.fetch u).2 ≠ [] →
        rowsOf env u ≠ [] ∧ ∀ r ∈ rowsOf env u, r ∈ c2) := by
  obtain ⟨c2, hok, _⟩ := reindexT_total env us c hnf hek hcan
  refine ⟨_, c2, hok, rfl, ?_, ?_⟩
  · intro u hu
    unfold urlChunks
    rw [hu]
    rfl
  · intro u hu hw
    have hne : (env.fetch u).2.isEmpty = false := ne_empty_of_pySplit_ne_nil hw
    obtain ⟨c1, total, hdl, hul, hs⟩ := reindexT_ok_elim hok
    obtain ⟨hemb, hsub⟩ := upsertLoop_added env (pyDedup us) (nodup_pyDedup us) c1 c2 total
      hul u (mem_pyDedup.mpr hu) hne
    exact ⟨rowsOf_ne_nil hne hw hemb, hsub⟩

def envOneBad : Env :=
  { fetch := fun u => if u = "bad" then ("", "") else ("title of " ++ u, "hello world"),
    embed := fun docs => .ok (docs.map (fun _ => ([] : Vec))),
    deleteFails := fun _ => false }

/-- Witness for the amended C2: with one URL whose fetch fails, the run
still completes, the failed URL contributes zero chunks and the other URL
is indexed. -/
theorem reindex_fetch_failure_isolated_witness :
    ∃ s c2, (reindexT envOneBad ["good", "bad"] []).2 = .ok (s, c2) ∧
      s.total_indexed_chunks = ((pyDedup ["good", "bad"]).map (urlChunks envOneBad)).sum ∧
      (∀ u ∈ ["good", "bad"], pySplit (envOneBad.fetch u).2 ≠ [] →
        rowsOf envOneBad u ≠ [] ∧ ∀ r ∈ rowsOf envOneBad u, r ∈ c2) := by
  obtain ⟨s, c2, hok, htot, _, hpres⟩ :=
    reindex_fetch_failure_isolated envOneBad ["good", "bad"] []
      (fun _ => rfl)
      (fun docs => ⟨docs.map (fun _ => ([] : Vec)), rfl, by rw [List.length_map]⟩)
      (fun e he => absurd he (by simp))
  exact ⟨s, c2, hok, htot, hpres⟩

/-! ## Claim theorems: idempotence -/

def envEmptyFetch : Env :=
  { fetch := fun _ => ("t", ""),
    embed := fun _ => .ok [],
    deleteFails := fun _ => false }

/-- C3 counterexample: with a URL whose fetch yields empty text on both
runs (unchanged content), the first run indexes nothing, so the second
run still reports `added_urls_count = 1`, not `0`.  The claim that the
second run always yields `added_urls_count == 0` is therefore false as
stated. -/
theorem reindex_idempotence_cex :
    ∃ s1 c1 s2 c2, (reindexT envEmptyFetch ["a"] []).2 = .ok (s1, c1) ∧
      (reindexT envEmptyFetch ["a"] c1).2 = .ok (s2, c2) ∧
      s2.added_urls_count = 1 := by
  refine ⟨{ added_urls_count := 1, removed_urls_count := 0, total_indexed_chunks := 0 }, [],
    { added_urls_count := 1, removed_urls_count := 0, total_indexed_chunks := 0 }, [],
    ?_, ?_, ?_⟩ <;> rfl

/-- C3 amended: when additionally every URL of the set fetches non-empty
text (at least one word), running `reindex` twice with the same URL set
and unchanged content yields `added_urls_count = 0` and
`removed_urls_count = 0` on the second run, the collection after the
second run is identical to the collection after the first, and in
particular the chunk ids written are identical.  Stated for a storage
whose deletes succeed, an embedding provider that answers every batch,
and a collection whose ids are the program's own digests. -/
theorem reindex_idempotent (env : Env) (us : List String) (c : Collection)
    (hnf : noDeleteFail env) (hek : embedOk env) (hcan : canonicalIds c)
    (hfetch : ∀ u ∈ us, pySplit (env.fetch u).2 ≠ []) :
    ∃ s1 c1 s2 c2, (reindexT env us c).2 = .ok (s1, c1) ∧
      (reindexT env us c1).2 = .ok (s2, c2) ∧
      s2.added_urls_count = 0 ∧ s2.removed_urls_count = 0 ∧
      c2 = c1 ∧ c2.map Entry.id = c1.map Entry.id := by
  have hall : ∀ u ∈ us, (env.fetch u).2.isEmpty = false :=
    fun u hu => ne_empty_of_pySplit_ne_nil (hfetch u hu)
  have hrun1 := reindexT_exact env us c hnf hek hcan hall
  set c1 := (pyDedup us).flatMap (rowsOf env) with hc1
  have hcan1 : canonicalIds c1 := by
    intro e he
    rw [hc1] at he
    obtain ⟨u, _, hu⟩ := List.mem_flatMap.mp he
    exact rowsOf_canonical env u e hu
  have hex1 : ∀ x, x ∈ existing_urls c1 ↔ x ∈ pyDedup us := by
    intro x
    constructor
    · intro hx
      obtain ⟨e, he, rfl⟩ := mem_existing_urls.mp hx
      rw [hc1] at he
      obtain ⟨u, hu, hue⟩ := List.mem_flatMap.mp he
      rw [rowsOf_url env u e hue]
      exact hu
    · intro hx
      have hne : (env.fetch x).2.isEmpty = false := hall x (mem_pyDedup.mp hx)
      have hw := hfetch x (mem_pyDedup.mp hx)
      obtain ⟨vecs, hv, hvl⟩ := hek (chunkSegs (env.fetch x).2)
      have hrne : rowsOf env x ≠ [] := rowsOf_ne_nil hne hw ⟨vecs, hv, hvl⟩
      rcases hrows : rowsOf env x with _ | ⟨r, rest⟩
      · exact absurd hrows hrne
      · have hr : r ∈ c1 := by
          rw [hc1]
          refine List.mem_flatMap.mpr ⟨x, hx, ?_⟩
          rw [hrows]
          exact List.mem_cons_self _ _
        have : r.url = x := rowsOf_url env x r (by rw [hrows]; exact List.mem_cons_self _ _)
        exact mem_existing_urls.mpr ⟨r, hr, this⟩
  have hrem2 : removedOf us c1 = [] := by
    unfold removedOf
    rw [List.filter_eq_nil_iff]
    intro x hx
    have hmem : x ∈ pyDedup us := (hex1 x).mp hx
    have hcont : (pyDedup us).contains x = true := List.elem_iff.mpr hmem
    simp [hcont]
    exact hmem
  have hadd2 : addedOf us c1 = [] := by
    unfold addedOf
    rw [List.filter_eq_nil_iff]
    intro x hx
    have hmem : x ∈ existing_urls c1 := (hex1 x).mpr hx
    have hcont : (existing_urls c1).contains x = true := List.elem_iff.mpr hmem
    simp [hcont]
    exact hmem
  have hrun2 := reindexT_exact env us c1 hnf hek hcan1 hall
  rw [hrem2, hadd2] at hrun2
  simp only [List.length_nil] at hrun2
  exact ⟨_, c1, _, (pyDedup us).flatMap (rowsOf env), hrun1, hrun2, rfl, rfl, rfl, rfl⟩

def envIdem : Env :=
  { fetch := fun u => ("title of " ++ u, "stable content"),
    embed := fun docs => .ok (docs.map (fun _ => ([] : Vec))),
    deleteFails := fun _ => false }

/-- Witness for the amended C3 at a concrete healthy environment. -/
theorem reindex_idempotent_witness :
    ∃ s1 c1 s2 c2, (reindexT envIdem ["x", "y"] []).2 = .ok (s1, c1) ∧
      (reindexT envIdem ["x", "y"] c1).2 = .ok (s2, c2) ∧
      s2.added_urls_count = 0 ∧ s2.removed_urls_count = 0 ∧ c2 = c1 :=
  let h := reindex_idempotent envIdem ["x", "y"] []
    (fun _ => rfl)
    (fun docs => ⟨docs.map (fun _ => ([] : Vec)), rfl, by rw [List.length_map]⟩)
    (fun e he => absurd he (by simp))
    (by decide)
  let ⟨s1, c1, s2, c2, h1, h2, h3, h4, h5, _⟩ := h
  ⟨s1, c1, s2, c2, h1, h2, h3, h4, h5⟩

/-! ## Claim theorems: delete failures -/

def envDelFail : Env :=
  { fetch := fun u => ("title of " ++ u, "hello world"),
    embed := fun docs => .ok (docs.map (fun _ => ([] : Vec))),
    deleteFails := fun _ => true }

def colStale : Collection := [⟨("old", 0), "old doc", [], "old", "t", 0⟩]

/-- C8 counterexample: a storage failure while deleting a removed URL's
entries is NOT swallowed — the `for url in removed: _delete_url(...)` loop
in `reindex` has no try/except, so the exception aborts the whole run:
the result is an error and the trace shows that no further deletion and
no addition was ever attempted.  The claim that such failures are
swallowed and the run continues is therefore false as stated. -/
theorem reindex_delete_failure_cex :
    (reindexT envDelFail ["a"] colStale).2 = .error () ∧
    (reindexT envDelFail ["a"] colStale).1 = [.del "old"] := by
  constructor <;> rfl

/-- C8 amended: a storage failure raised while deleting a removed URL's
entries propagates and aborts the `reindex` run before any addition is
attempted (every event of the aborted run is a deletion); only the
defensive delete inside `_upsert_url` is swallowed — if that delete
fails but the embedding and the add succeed, `_upsert_url` still returns
its chunk count. -/
theorem reindex_delete_failure_amended :
    (∀ (env : Env) (us : List String) (c : Collection),
      (deleteLoop env c (removedOf us c)).2 = .error () →
      (reindexT env us c).2 = .error () ∧
      ∀ ev ∈ (reindexT env us c).1, ∃ u, ev = .del u) ∧
    (∀ (env : Env) (c : Collection) (u : String) (c2 : Collection) (vecs : List Vec),
      delete_url env c u = .error () →
      (env.fetch u).2.isEmpty = false →
      env.embed (chunkSegs (env.fetch u).2) = .ok vecs →
      collection_add c (chunkSegs (env.fetch u).2) vecs
        ((List.range (chunkSegs (env.fetch u).2).length).map (fun n => (u, (env.fetch u).1, n)))
        ((List.range (chunkSegs (env.fetch u).2).length).map (fun n => sha1_id u n)) = .ok c2 →
      (upsert_urlT env c u).2 = .ok ((chunkSegs (env.fetch u).2).length, c2)) := by
  constructor
  · intro env us c herr
    have hshape : (reindexT env us c).2 = .error () ∧
        (reindexT env us c).1 = (deleteLoop env c (removedOf us c)).1 := by
      unfold reindexT
      simp only
      rcases hdl : deleteLoop env c (removedOf us c) with ⟨evs, r⟩
      rw [hdl] at herr
      simp only at herr
      subst herr
      exact ⟨rfl, rfl⟩
    refine ⟨hshape.1, ?_⟩
    intro ev hev
    rw [hshape.2] at hev
    obtain ⟨u, _, hu⟩ := deleteLoop_events env (removedOf us c) c ev hev
    exact ⟨u, hu⟩
  · intro env c u c2 vecs hdel hne hemb hadd
    rcases hfe : env.fetch u with ⟨title, text⟩
    rw [hfe] at hne hemb hadd
    simp only at hne hemb hadd
    unfold upsert_urlT
    rw [hfe]
    simp only [hne, Bool.false_eq_true, if_false]
    rw [_chunk_defaults_ok]
    simp only
    rw [hemb]
    simp only
    rw [hdel]
    simp only
    rw [hadd]

def envDelFail2 : Env :=
  { fetch := fun u => ("title of " ++ u, "fresh words"),
    embed := fun docs => .ok (docs.map (fun _ => ([] : Vec))),
    deleteFails := fun _ => true }

def colStale2 : Collection := [⟨("gone", 0), "stale doc", [], "gone", "t", 0⟩]

/-- Witness for the amended C8: a concrete aborted run whose trace holds
only deletions, and a concrete swallowed defensive delete inside
`_upsert_url`. -/
theorem reindex_delete_failure_amended_witness :
    ((reindexT envDelFail2 ["w"] colStale2).2 = .error () ∧
      ∀ ev ∈ (reindexT envDelFail2 ["w"] colStale2).1, ∃ u, ev = .del u) ∧
    (upsert_urlT envDelFail2 [⟨("w", 5), "old w doc", [], "w", "t", 5⟩] "w").2
      = .ok (1, [⟨("w", 5), "old w doc", [], "w", "t", 5⟩,
                 ⟨("w", 0), "fresh words", [], "w", "title of w", 0⟩]) :=
  ⟨reindex_delete_failure_amended.1 envDelFail2 ["w"] colStale2 rfl,
   reindex_delete_failure_amended.2 envDelFail2
     [⟨("w", 5), "old w doc", [], "w", "t", 5⟩] "w"
     [⟨("w", 5), "old w doc", [], "w", "t", 5⟩,
      ⟨("w", 0), "fresh words", [], "w", "title of w", 0⟩] [[]] rfl rfl rfl rfl⟩
